import Mathlib

/-!
Verification of the meteoserver core data structures against their C source
(src/dataStructures/requestQueue.c, src/dataStructures/lruCache.c,
src/requestMonitor/requestMonitor.c, src/utils/crypto.c, src/main/main.c).

The C code is shallowly embedded: heap-linked structures become lists or
index arenas, machine integers become naturals reduced modulo two to the
word size where the C code can overflow, fallible functions return Option,
and the mutex or condition variable protected loops become pure functions
over the sequence of states observed at each wakeup.
-/

/- Latch bits from inc/meteoserver.h. -/

def SERVER_ENABLED : Nat := 0x01
def SERVER_SIGUSR1 : Nat := 0x02
def SERVER_SIGTERM : Nat := 0x04
def ERROR : Nat := 1
def SUCCESS : Nat := 0
def MAXREQUESTSIZE : Nat := 4096
def REQUEST_FIELDS : Nat := 3

/- ===================== Blocking queue (requestQueue.c) =====================

The doubly linked first-to-last node chain is embedded as the list of the
payloads in chain order, first element of the list being the first node of
the queue. The elements counter is kept as a separate field exactly as in
the C struct. -/

structure linked_queue (α : Type) where
  nodes : List α
  elements : Nat
deriving DecidableEq

/-- From linked_queue_init: empty chain, zero elements. -/
def linked_queue_init {α : Type} : linked_queue α :=
  { nodes := [], elements := 0 }

/-- From linked_queue_append_node: if the queue is empty the node becomes both
first and last, otherwise it is linked after the current last node; the
elements counter is incremented. Either way the payload chain gains the new
payload at the tail. -/
def linked_queue_append_node {α : Type} (queue : linked_queue α) (node : α) :
    linked_queue α :=
  if queue.nodes.isEmpty then
    { nodes := [node], elements := queue.elements + 1 }
  else
    { nodes := queue.nodes ++ [node], elements := queue.elements + 1 }

/-- From linked_queue_push: allocate a node for the payload and append it. -/
def linked_queue_push {α : Type} (queue : linked_queue α) (data : α) :
    linked_queue α :=
  linked_queue_append_node queue data

/-- From linked_queue_push_ex: same append under the mutex, plus a condition
variable signal that has no effect on the queue contents. -/
def linked_queue_push_ex {α : Type} (queue : linked_queue α) (data : α) :
    linked_queue α :=
  linked_queue_append_node queue data

/-- From linked_queue_pop_node: unlink the first node, decrement elements. -/
def linked_queue_pop_node {α : Type} (queue : linked_queue α) : linked_queue α :=
  { nodes := queue.nodes.tail, elements := queue.elements - 1 }

/-- From linked_queue_pop: if a first node exists return its payload and
unlink it, otherwise return none and leave the queue unchanged. -/
def linked_queue_pop {α : Type} (queue : linked_queue α) :
    Option α × linked_queue α :=
  match queue.nodes with
  | [] => (none, queue)
  | d :: _ => (some d, linked_queue_pop_node queue)

/-- Outcome of one call to linked_queue_pop_ex: a popped payload with the
remaining queue, the shutdown return (NULL after the SIGTERM break), or
still blocked in pthread_cond_wait because the supplied wakeup trace ran out. -/
inductive PopExResult (α : Type) where
  | popped (data : α) (queue : linked_queue α)
  | shutdown
  | stillWaiting
deriving DecidableEq

/-- One iteration of the linked_queue_pop_ex loop body on the observed queue
and latch: a successful linked_queue_pop returns the payload; an empty pop
with the SERVER_SIGTERM latch bit breaks out returning NULL; otherwise the
iteration produces no result and the loop waits on the condition variable. -/
def pop_ex_step {α : Type} (st : linked_queue α × Nat) : Option (PopExResult α) :=
  match linked_queue_pop st.1 with
  | (some d, q) => some (.popped d q)
  | (none, _) =>
    if st.2 &&& SERVER_SIGTERM ≠ 0 then some .shutdown else none

/-- From linked_queue_pop_ex: under the mutex, loop: try linked_queue_pop; on
success return the payload; otherwise break with NULL when the latch has the
SERVER_SIGTERM bit, else wait on the condition variable and retry. The loop
is embedded as a function of the queue and latch observed when the mutex is
first taken together with the list of queue and latch states observed after
each condition-variable wakeup (a spurious wakeup is an entry whose state is
unchanged); when the iteration decides nothing and no wakeup remains the
call is still blocked. -/
def linked_queue_pop_ex {α : Type} :
    linked_queue α × Nat → List (linked_queue α × Nat) → PopExResult α
  | st, [] => (pop_ex_step st).getD .stillWaiting
  | st, w :: rest => (pop_ex_step st).getD (linked_queue_pop_ex w rest)

/- ===================== Accept loop payload (main.c) =====================

In start_server the accept loop stores each accepted descriptor in the single
stack-local int named connection and pushes the address of that variable:
linked_queue_push_ex(state->requestQueue, &connection). The pushed payload is
therefore the same address on every iteration. Addresses are modelled as
naturals and connectionVarAddr is the address of that one variable. -/

def connectionVarAddr : Nat := 0

/-- From start_server: the push performed for one accepted connection. -/
def start_server_push_accepted (queue : linked_queue Nat) : linked_queue Nat :=
  linked_queue_push_ex queue connectionVarAddr

/-- From start_server: the pushes performed after accepting k connections,
with no intervening pops. -/
def start_server_accept_pushes : Nat → linked_queue Nat → linked_queue Nat
  | 0, queue => queue
  | k + 1, queue => start_server_accept_pushes k (start_server_push_accepted queue)

/- ===================== Request parser (requestMonitor.c) =====================

tokenize_request walks the buffer with strtok(str, " "). strtok returns the
maximal runs of non-space characters, skipping over any run of spaces, and
never returns an empty token, so the token stream is embedded as tokensAux,
which accumulates the current run and drops empty runs. Buffers are lists of
characters; a NULL char pointer argument is an Option none. -/

def tokensAux : List Char → List Char → List (List Char)
  | [], acc => if acc.isEmpty then [] else [acc.reverse]
  | c :: rest, acc =>
    if c = ' ' then
      if acc.isEmpty then tokensAux rest [] else acc.reverse :: tokensAux rest []
    else
      tokensAux rest (c :: acc)

/-- The token sequence produced by repeated strtok(str, " ") calls. -/
def strtok_spaces (s : List Char) : List (List Char) :=
  tokensAux s []

/-- The isspace class of the C locale: space, tab, newline, vertical tab,
form feed, carriage return. -/
def isSpaceC (c : Char) : Bool :=
  c = ' ' || c = '\t' || c = '\n' || c = '\x0b' || c = '\x0c' || c = '\r'

/-- From the strtoul(token, NULL, 10) call: skip leading isspace characters,
consume one optional sign, then consume the maximal run of decimal digits and
return its value as an unsigned long, clamped to ULONG_MAX on overflow; with
no digits the result is 0. A minus sign negates the value modulo 2 to the 64. -/
def strtoul10 (s : List Char) : Nat :=
  let cs := s.dropWhile isSpaceC
  let neg : Bool := cs.headD ' ' = '-'
  let body : List Char :=
    if cs.headD ' ' = '-' ∨ cs.headD ' ' = '+' then cs.tail else cs
  let digits := body.takeWhile (fun c => c.isDigit)
  let v : Nat := digits.foldl (fun a c => a * 10 + (c.toNat - 48)) 0
  let v : Nat := if v < 2 ^ 64 then v else 2 ^ 64 - 1
  if neg then (2 ^ 64 - v % 2 ^ 64) % 2 ^ 64 else v

/-- The request struct filled in by the parser: msg is the strdup-ed copy of
the second token (none while unset), mseconds the strtoul value of the third. -/
structure request where
  msg : Option (List Char)
  mseconds : Nat
deriving DecidableEq

/-- The switch body of tokenize_request, iterated over the token stream with
the running requestIterator count: token 1 must be the literal get, token 2 is
copied into msg, token 3 is parsed with strtoul, a fourth token returns ERROR,
and at the end of the stream the count must be exactly REQUEST_FIELDS. -/
def tokenize_request_go : List (List Char) → Nat → request → Nat × request
  | [], it, req => if it = REQUEST_FIELDS then (SUCCESS, req) else (ERROR, req)
  | t :: rest, it, req =>
    if it + 1 = 1 then
      if t = ("get").data then tokenize_request_go rest (it + 1) req
      else (ERROR, req)
    else if it + 1 = 2 then
      tokenize_request_go rest (it + 1) { req with msg := some t }
    else if it + 1 = 3 then
      tokenize_request_go rest (it + 1) { req with mseconds := strtoul10 t }
    else (ERROR, req)

/-- From tokenize_request: ERROR on a NULL buffer, otherwise run the switch
over the strtok token stream. -/
def tokenize_request (str : Option (List Char)) (req : request) : Nat × request :=
  match str with
  | none => (ERROR, req)
  | some s => tokenize_request_go (strtok_spaces s) 0 req

/- ===================== LRU cache (lruCache.c) =====================

The pre-allocated node pool cachePool is embedded as a list of nodes indexed
by pool position; the prev and next pointers become pool indices. calloc
zeroes every field, so a fresh node has empty strings and both links at
index 0; the C NULL pointer and a link to pool slot 0 coincide in this
encoding, which is harmless because the code never follows a link that was
not previously assigned. Every pointer assignment of the C code is replayed
in source order on the evolving pool, re-reading links exactly where the C
statement reads them. -/

structure lruCacheNode where
  request : Option String
  md5 : Option String
  next : Nat
  prev : Nat
deriving DecidableEq

instance : Inhabited lruCacheNode := ⟨⟨none, none, 0, 0⟩⟩

structure lruCache where
  head : Nat
  cachePool : List lruCacheNode
  currentCapacity : Nat
  totalCapacity : Nat
deriving DecidableEq

/-- Dereference a node pointer: read pool slot i. -/
def getNode (pool : List lruCacheNode) (i : Nat) : lruCacheNode :=
  pool.getD i default

/-- Pointer write node->next = v. -/
def setNext (pool : List lruCacheNode) (i v : Nat) : List lruCacheNode :=
  pool.set i { getNode pool i with next := v }

/-- Pointer write node->prev = v. -/
def setPrev (pool : List lruCacheNode) (i v : Nat) : List lruCacheNode :=
  pool.set i { getNode pool i with prev := v }

/-- From lru_cache_init: NULL for capacity <= 0 (the argument is a C int, so
negative values are possible); otherwise a calloc-zeroed pool of capacity
nodes with head at slot 0 linked to itself and zero live nodes. -/
def lru_cache_init (capacity : Int) : Option lruCache :=
  if capacity ≤ 0 then
    none
  else
    let n := capacity.toNat
    let pool := List.replicate n (default : lruCacheNode)
    let pool := setNext pool 0 0
    let pool := setPrev pool 0 0
    some { head := 0, cachePool := pool, currentCapacity := 0, totalCapacity := n }

/-- From lru_find_element: linear scan of the first currentCapacity pool
slots, returning the first one whose stored request matches, as an index. -/
def lru_find_element (cachePool : List lruCacheNode) (req : String)
    (currentCapacity : Nat) : Option Nat :=
  (List.range currentCapacity).find?
    (fun i => (getNode cachePool i).request = some req)

/-- From lru_cache_get_element: find the node; when present and not already
the head, unlink it and splice it in front of the current head, then make it
the head; return its md5 (none models the NULL return on a miss). The six
pointer assignments are replayed in source order, each reading the pool as
left by the previous one. -/
def lru_cache_get_element (cache : lruCache) (req : String) :
    Option String × lruCache :=
  match lru_find_element cache.cachePool req cache.currentCapacity with
  | none => (none, cache)
  | some i =>
    if i = cache.head then
      ((getNode cache.cachePool i).md5, cache)
    else
      let pool := cache.cachePool
      let pool := setNext pool (getNode pool i).prev (getNode pool i).next
      let pool := setPrev pool (getNode pool i).next (getNode pool i).prev
      let pool := setNext pool i cache.head
      let pool := setPrev pool i (getNode pool cache.head).prev
      let pool := setNext pool (getNode pool i).prev i
      let pool := setPrev pool (getNode pool i).next i
      ((getNode pool i).md5, { cache with cachePool := pool, head := i })

/-- From lru_cache_update_node: while the pool is not exhausted the fresh slot
at index currentCapacity receives a copy of the request and the md5 value and
is spliced in front of the head; once full, the LRU node head->prev has its
strings dropped and overwritten in place, with no link assignment. In both
branches the written node becomes the new head. -/
def lru_cache_update_node (cache : lruCache) (req value : String) : lruCache :=
  if cache.currentCapacity < cache.totalCapacity then
    let i := cache.currentCapacity
    let pool := cache.cachePool
    let pool := pool.set i { getNode pool i with request := some req, md5 := some value }
    let pool := setNext pool i cache.head
    let pool := setPrev pool i (getNode pool cache.head).prev
    let pool := setNext pool (getNode pool i).prev i
    let pool := setPrev pool (getNode pool i).next i
    { cache with cachePool := pool, head := i,
                 currentCapacity := cache.currentCapacity + 1 }
  else
    let i := (getNode cache.cachePool cache.head).prev
    let pool := cache.cachePool
    let pool := pool.set i { getNode pool i with request := some req, md5 := some value }
    { cache with cachePool := pool, head := i }

/-- A cache operation issued by a worker: a lookup or an insertion. -/
inductive CacheOp where
  | get (k : String)
  | put (k v : String)
deriving DecidableEq

/-- Apply one operation to the cache, discarding the value a get returns. -/
def execOp (cache : lruCache) : CacheOp → lruCache
  | .get k => (lru_cache_get_element cache k).2
  | .put k v => lru_cache_update_node cache k v

/-- Apply a sequence of operations left to right. -/
def execOps (cache : lruCache) (ops : List CacheOp) : lruCache :=
  ops.foldl execOp cache

/- ===================== MD5 (crypto.c) =====================

32-bit words are naturals kept below 2 to the 32 by reducing modulo M32
exactly where the C uint32_t arithmetic truncates; bytes are naturals kept
below 256 the same way. The 64-byte context input buffer is a list of 64
bytes. -/

def M32 : Nat := 4294967296

/-- Initialization constants A, B, C, D of the MD5 context. -/
def md5A : Nat := 0x67452301
def md5B : Nat := 0xefcdab89
def md5C : Nat := 0x98badcfe
def md5D : Nat := 0x10325476

/-- The hex alphabet used by hash_to_string and md5String. -/
def hexChars : List Char :=
  ("0123456789abcdef").data

/-- Per-round shift amounts S from crypto.c. -/
def md5S : List Nat :=
  [7, 12, 17, 22, 7, 12, 17, 22, 7, 12, 17, 22, 7, 12, 17, 22,
   5, 9, 14, 20, 5, 9, 14, 20, 5, 9, 14, 20, 5, 9, 14, 20,
   4, 11, 16, 23, 4, 11, 16, 23, 4, 11, 16, 23, 4, 11, 16, 23,
   6, 10, 15, 21, 6, 10, 15, 21, 6, 10, 15, 21, 6, 10, 15, 21]

/-- Per-round sine constants K from crypto.c. -/
def md5K : List Nat :=
  [0xd76aa478, 0xe8c7b756, 0x242070db, 0xc1bdceee,
   0xf57c0faf, 0x4787c62a, 0xa8304613, 0xfd469501,
   0x698098d8, 0x8b44f7af, 0xffff5bb1, 0x895cd7be,
   0x6b901122, 0xfd987193, 0xa679438e, 0x49b40821,
   0xf61e2562, 0xc040b340, 0x265e5a51, 0xe9b6c7aa,
   0xd62f105d, 0x02441453, 0xd8a1e681, 0xe7d3fbc8,
   0x21e1cde6, 0xc33707d6, 0xf4d50d87, 0x455a14ed,
   0xa9e3e905, 0xfcefa3f8, 0x676f02d9, 0x8d2a4c8a,
   0xfffa3942, 0x8771f681, 0x6d9d6122, 0xfde5380c,
   0xa4beea44, 0x4bdecfa9, 0xf6bb4b60, 0xbebfbc70,
   0x289b7ec6, 0xeaa127fa, 0xd4ef3085, 0x04881d05,
   0xd9d4d039, 0xe6db99e5, 0x1fa27cf8, 0xc4ac5665,
   0xf4292244, 0x432aff97, 0xab9423a7, 0xfc93a039,
   0x655b59c3, 0x8f0ccc92, 0xffeff47d, 0x85845dd1,
   0x6fa87e4f, 0xfe2ce6e0, 0xa3014314, 0x4e0811a1,
   0xf7537e82, 0xbd3af235, 0x2ad7d2bb, 0xeb86d391]

/-- Bitwise complement on a 32-bit word. -/
def not32 (x : Nat) : Nat := 0xffffffff ^^^ x

/-- Round function F from crypto.c. -/
def md5F (x y z : Nat) : Nat := (x &&& y) ||| (not32 x &&& z)

/-- Round function G from crypto.c. -/
def md5G (x y z : Nat) : Nat := (x &&& z) ||| (y &&& not32 z)

/-- Round function H from crypto.c. -/
def md5H (x y z : Nat) : Nat := x ^^^ y ^^^ z

/-- Round function I from crypto.c. -/
def md5I (x y z : Nat) : Nat := y ^^^ (x ||| not32 z)

/-- From rotateLeft: (x << n) | (x >> (32 - n)) on uint32_t. -/
def rotateLeft (x n : Nat) : Nat :=
  (((x <<< n) % M32) ||| (x >>> (32 - n))) % M32

/-- The MD5Context struct: running byte count, four-word accumulator, the
64-byte staging buffer and the final 16-byte digest. -/
structure MD5Context where
  size : Nat
  buffer : List Nat
  input : List Nat
  digest : List Nat
deriving DecidableEq

/-- From md5Init: zero size, accumulator seeded with A, B, C, D. The staging
buffer is uninitialized in C; it is zeroed here, and no byte of it is read
before being written. -/
def md5Init : MD5Context :=
  { size := 0, buffer := [md5A, md5B, md5C, md5D],
    input := List.replicate 64 0, digest := List.replicate 16 0 }

/-- Little-endian packing of the 64-byte staging buffer into 16 words, as
done in md5Update and md5Finalize. -/
def bytesToWords (inp : List Nat) : List Nat :=
  (List.range 16).map (fun j =>
    ((inp.getD (j * 4 + 3) 0) <<< 24) ||| ((inp.getD (j * 4 + 2) 0) <<< 16) |||
    ((inp.getD (j * 4 + 1) 0) <<< 8) ||| inp.getD (j * 4) 0)

/-- From md5Step: the 64-round compression of one 512-bit block into the
four-word accumulator. -/
def md5Step (buffer input : List Nat) : List Nat :=
  let a0 := buffer.getD 0 0
  let b0 := buffer.getD 1 0
  let c0 := buffer.getD 2 0
  let d0 := buffer.getD 3 0
  let fin := (List.range 64).foldl
    (fun (st : Nat × Nat × Nat × Nat) i =>
      let (aa, bb, cc, dd) := st
      let ej : Nat × Nat :=
        if i / 16 = 0 then (md5F bb cc dd, i)
        else if i / 16 = 1 then (md5G bb cc dd, (i * 5 + 1) % 16)
        else if i / 16 = 2 then (md5H bb cc dd, (i * 3 + 5) % 16)
        else (md5I bb cc dd, (i * 7) % 16)
      let temp := dd
      let bb2 := (bb + rotateLeft ((aa + ej.1 + md5K.getD i 0 + input.getD ej.2 0) % M32)
                        (md5S.getD i 0)) % M32
      (temp, bb2, bb, cc))
    (a0, b0, c0, d0)
  [(a0 + fin.1) % M32, (b0 + fin.2.1) % M32,
   (c0 + fin.2.2.1) % M32, (d0 + fin.2.2.2) % M32]

/-- From md5Update: append bytes one at a time into the staging buffer at
offset size mod 64, truncated to uint8_t, running md5Step each time a 64-byte
block completes; the size grows by the input length. -/
def md5Update (ctx : MD5Context) (input_buffer : List Nat) : MD5Context :=
  let offset := ctx.size % 64
  let ctx := { ctx with size := ctx.size + input_buffer.length }
  let fin := input_buffer.foldl
    (fun (st : MD5Context × Nat) b =>
      let c := st.1
      let inp := c.input.set st.2 (b % 256)
      let off := st.2 + 1
      if off % 64 = 0 then
        ({ c with input := inp, buffer := md5Step c.buffer (bytesToWords inp) }, 0)
      else
        ({ c with input := inp }, off))
    (ctx, offset)
  fin.1

/-- The constant PADDING block: 0x80 followed by zero bytes. -/
def PADDING : List Nat := 0x80 :: List.replicate 63 0

/-- From md5Finalize: pad to 56 bytes mod 64, undo the padding contribution to
size, pack the 56 staged bytes plus the 64-bit little-endian bit length into a
final block, run md5Step, and unpack the accumulator little-endian into the
16-byte digest. -/
def md5Finalize (ctx : MD5Context) : MD5Context :=
  let offset := ctx.size % 64
  let padding_length := if offset < 56 then 56 - offset else 56 + 64 - offset
  let ctx := md5Update ctx (PADDING.take padding_length)
  let ctx := { ctx with size := ctx.size - padding_length }
  let input :=
    ((List.range 14).map (fun j =>
      ((ctx.input.getD (j * 4 + 3) 0) <<< 24) ||| ((ctx.input.getD (j * 4 + 2) 0) <<< 16) |||
      ((ctx.input.getD (j * 4 + 1) 0) <<< 8) ||| ctx.input.getD (j * 4) 0))
    ++ [(ctx.size * 8) % M32, ((ctx.size * 8) >>> 32) % M32]
  let buffer := md5Step ctx.buffer input
  { ctx with buffer := buffer,
             digest := (List.range 4).flatMap (fun i =>
               [buffer.getD i 0 % 256,
                (buffer.getD i 0 >>> 8) % 256,
                (buffer.getD i 0 >>> 16) % 256,
                (buffer.getD i 0 >>> 24) % 256]) }

/-- From md5String: hash the bytes of the input string and render the 16
digest bytes as 32 hex characters, high nibble first within each byte. The
C function reads its argument as the strlen-delimited byte array; for the
ASCII strings the server handles the bytes are the char codes. -/
def md5String (input : String) : String :=
  let bytes := input.data.map Char.toNat
  let ctx := md5Finalize (md5Update md5Init bytes)
  String.mk ((List.range 16).flatMap (fun i =>
    [hexChars.getD ((ctx.digest.getD i 0 &&& 0xf0) >>> 4) 'x',
     hexChars.getD (ctx.digest.getD i 0 &&& 0x0f) 'x']))

/- ===================== Derived notions used by the statements ============= -/

/-- A single consumer popping repeatedly: pop until the queue reports empty or
the fuel runs out. -/
def drainQueue {α : Type} : Nat → linked_queue α → List α
  | 0, _ => []
  | fuel + 1, queue =>
    match linked_queue_pop queue with
    | (none, _) => []
    | (some d, rest) => d :: drainQueue fuel rest

/-- The key an operation touches. -/
def CacheOp.key : CacheOp → String
  | .get k => k
  | .put k _ => k

/-- The next link of pool slot i. -/
def nxt (cache : lruCache) (i : Nat) : Nat :=
  (getNode cache.cachePool i).next

/-- The prev link of pool slot i. -/
def prv (cache : lruCache) (i : Nat) : Nat :=
  (getNode cache.cachePool i).prev

/-- Slots a and b are consecutive on the recency ring: the next link of a is
b and the prev link of b is a. -/
def Adj (cache : lruCache) (a b : Nat) : Prop :=
  nxt cache a = b ∧ prv cache b = a

/-- The recency ring invariant: r lists the pool indices of the ring in MRU
to LRU order, starting at the head. While the cache is empty r is the
self-linked boot slot [0]; once nodes are live r enumerates exactly the live
slots, consecutive entries are linked both ways, and the last entry links
back to the head. -/
structure IsRing (cache : lruCache) (r : List Nat) : Prop where
  nonempty : r ≠ []
  nodup : r.Nodup
  headEq : r.headD 0 = cache.head
  chain : List.Chain' (Adj cache) r
  wrap : Adj cache (r.getLastD 0) (r.headD 0)
  mem : (cache.currentCapacity = 0 ∧ r = [0]) ∨
        (∀ i, i ∈ r ↔ i < cache.currentCapacity)
  len : r.length = max cache.currentCapacity 1
  poolLen : cache.cachePool.length = cache.totalCapacity
  capLe : cache.currentCapacity ≤ cache.totalCapacity
  totPos : 0 < cache.totalCapacity

/-- Slot i sits within the first t + 1 ring positions: the ring is some
prefix of length at most t, then i. -/
def RingPos (r : List Nat) (i t : Nat) : Prop :=
  ∃ p q, r = p ++ i :: q ∧ p.length ≤ t

/-- Every slot holding a request also holds a digest: both strings of a node
are written together by every put, so a found node always has an md5 to
return. -/
def MdOk (cache : lruCache) : Prop :=
  ∀ j, (getNode cache.cachePool j).request.isSome = true →
    (getNode cache.cachePool j).md5.isSome = true

/-- The key k is resident at slot i within the first t + 1 recency positions:
some ring realises the invariant and places i there, the cache has a live
node, and slot i holds k. -/
def Tracked (cache : lruCache) (i t : Nat) (k : String) : Prop :=
  ∃ r, IsRing cache r ∧ RingPos r i t ∧ 1 ≤ cache.currentCapacity ∧
    (getNode cache.cachePool i).request = some k

/-- The cache produced by lru_cache_init for a positive capacity n, written
out: slot 0 self-linked head, empty pool, no live nodes. -/
def initCache (n : Nat) : lruCache :=
  { head := 0, cachePool := List.replicate n (default : lruCacheNode),
    currentCapacity := 0, totalCapacity := n }

/-- The put sequence inserting the paired keys and digests in order. -/
def fillOps (ks ds : List String) : List CacheOp :=
  (ks.zip ds).map (fun p => CacheOp.put p.1 p.2)

/-- The cache state reached after m distinct-key puts on a fresh cache of
capacity n: slots 0 to m-1 hold the keys and digests in insertion order, the
head is the newest slot m-1, and the LRU node head->prev is slot 0. -/
def FilledState (n m : Nat) (ks ds : List String) (cache : lruCache) : Prop :=
  cache.totalCapacity = n ∧
  cache.currentCapacity = m ∧
  cache.cachePool.length = n ∧
  cache.head = m - 1 ∧
  (getNode cache.cachePool (m - 1)).prev = 0 ∧
  ∀ j, j < m → (getNode cache.cachePool j).request = some (ks.getD j "") ∧
               (getNode cache.cachePool j).md5 = some (ds.getD j "")

/- ===================== Queue lemmas and claims ===================== -/

theorem append_node_nodes {α : Type} (q : linked_queue α) (d : α) :
    (linked_queue_append_node q d).nodes = q.nodes ++ [d] := by
  unfold linked_queue_append_node
  rcases q with ⟨nodes, n⟩
  cases nodes <;> simp

theorem foldl_push_nodes {α : Type} (pushes : List α) :
    ∀ q : linked_queue α,
      (pushes.foldl linked_queue_push_ex q).nodes = q.nodes ++ pushes := by
  induction pushes with
  | nil => intro q; simp
  | cons d rest ih =>
    intro q
    simp only [List.foldl_cons]
    rw [ih, linked_queue_push_ex, append_node_nodes]
    simp

theorem drainQueue_eq {α : Type} (l : List α) :
    ∀ (q : linked_queue α), q.nodes = l → drainQueue l.length q = l := by
  induction l with
  | nil => intro q h; simp [drainQueue]
  | cons d rest ih =>
    intro q h
    simp only [List.length_cons, drainQueue, linked_queue_pop, h,
      linked_queue_pop_node, List.tail_cons]
    exact congrArg (d :: ·) (ih ⟨rest, q.elements - 1⟩ rfl)

/-- C6: every push sequence is drained in push order by a single consumer:
pushing appends the payload at the tail of the node chain, popping detaches
the head node, and draining the queue built from any push sequence yields
exactly that sequence. -/
theorem queue_fifo (α : Type) (pushes : List α) :
    drainQueue pushes.length (pushes.foldl linked_queue_push_ex linked_queue_init)
      = pushes ∧
    (∀ (q : linked_queue α) (d : α),
      (linked_queue_push_ex q d).nodes = q.nodes ++ [d]) ∧
    (∀ (d : α) (rest : List α) (n : Nat),
      linked_queue_pop ⟨d :: rest, n⟩ = (some d, ⟨rest, n - 1⟩)) := by
  refine ⟨?_, ?_, ?_⟩
  · exact drainQueue_eq pushes _ (by rw [foldl_push_nodes]; simp [linked_queue_init])
  · intro q d; exact append_node_nodes q d
  · intro d rest n; rfl

/-- C5: behavior of the blocking pop loop. (1) With a non-empty queue the
front payload is popped and returned no matter the latch, even with the
SIGTERM bit set. (2) With an empty queue and the SIGTERM bit set the call
returns the shutdown value at once. (3) With an empty queue and SIGTERM
clear the call waits and re-runs the same check on the state observed at the
next wakeup, which tolerates spurious wakeups, and with no wakeup it stays
blocked rather than returning. (4) Conversely a shutdown return is only
possible when some observed state had an empty queue with SIGTERM set. -/
theorem pop_ex_contract (α : Type) :
    (∀ (d : α) (tl : List α) (n h : Nat) (ws : List (linked_queue α × Nat)),
      linked_queue_pop_ex (⟨d :: tl, n⟩, h) ws = .popped d ⟨tl, n - 1⟩) ∧
    (∀ (n h : Nat) (ws : List (linked_queue α × Nat)),
      h &&& SERVER_SIGTERM ≠ 0 →
      linked_queue_pop_ex (⟨([] : List α), n⟩, h) ws = .shutdown) ∧
    (∀ (n h : Nat) (w : linked_queue α × Nat) (ws : List (linked_queue α × Nat)),
      h &&& SERVER_SIGTERM = 0 →
      linked_queue_pop_ex (⟨([] : List α), n⟩, h) (w :: ws) =
        linked_queue_pop_ex w ws) ∧
    (∀ (n h : Nat),
      h &&& SERVER_SIGTERM = 0 →
      linked_queue_pop_ex (⟨([] : List α), n⟩, h) [] = .stillWaiting) ∧
    (∀ (st : linked_queue α × Nat) (ws : List (linked_queue α × Nat)),
      linked_queue_pop_ex st ws = .shutdown →
      ∃ obs ∈ st :: ws, obs.1.nodes = [] ∧ obs.2 &&& SERVER_SIGTERM ≠ 0) := by
  have hstep_cons : ∀ (d : α) (tl : List α) (n h : Nat),
      pop_ex_step (⟨d :: tl, n⟩, h) = some (.popped d ⟨tl, n - 1⟩) := by
    intro d tl n h; rfl
  have hstep_term : ∀ (n h : Nat), h &&& SERVER_SIGTERM ≠ 0 →
      pop_ex_step ((⟨[], n⟩ : linked_queue α), h) = some .shutdown := by
    intro n h hterm
    simp [pop_ex_step, linked_queue_pop, hterm]
  have hstep_wait : ∀ (n h : Nat), h &&& SERVER_SIGTERM = 0 →
      pop_ex_step ((⟨[], n⟩ : linked_queue α), h) = none := by
    intro n h hterm
    simp [pop_ex_step, linked_queue_pop, hterm]
  refine ⟨?_, ?_, ?_, ?_, ?_⟩
  · intro d tl n h ws
    cases ws <;> simp [linked_queue_pop_ex, hstep_cons]
  · intro n h ws hterm
    cases ws <;> simp [linked_queue_pop_ex, hstep_term n h hterm]
  · intro n h w ws hterm
    simp [linked_queue_pop_ex, hstep_wait n h hterm]
  · intro n h hterm
    simp [linked_queue_pop_ex, hstep_wait n h hterm]
  · intro st ws
    induction ws generalizing st with
    | nil =>
      intro hres
      rcases st with ⟨⟨nodes, n⟩, h⟩
      cases nodes with
      | nil =>
        by_cases hterm : h &&& SERVER_SIGTERM = 0
        · simp [linked_queue_pop_ex, hstep_wait n h hterm] at hres
        · exact ⟨⟨⟨[], n⟩, h⟩, List.mem_cons_self _ _, rfl, hterm⟩
      | cons d tl =>
        simp [linked_queue_pop_ex, hstep_cons] at hres
    | cons w ws ih =>
      intro hres
      rcases st with ⟨⟨nodes, n⟩, h⟩
      cases nodes with
      | nil =>
        by_cases hterm : h &&& SERVER_SIGTERM = 0
        · simp only [linked_queue_pop_ex, hstep_wait n h hterm,
            Option.getD_none] at hres
          rcases ih w hres with ⟨obs, hmem, hobs⟩
          exact ⟨obs, List.mem_cons_of_mem _ hmem, hobs⟩
        · exact ⟨⟨⟨[], n⟩, h⟩, List.mem_cons_self _ _, rfl, hterm⟩
      | cons d tl =>
        simp [linked_queue_pop_ex, hstep_cons] at hres

/-- Witness for pop_ex_contract at concrete inputs: a queue holding 5 is
popped even with the SIGTERM bit (4) set; an empty queue with the bit set
shuts down; an empty queue without the bit waits and pops at the wakeup. -/
theorem pop_ex_contract_witness :
    linked_queue_pop_ex ((⟨[5], 3⟩ : linked_queue Nat), 4) [] = .popped 5 ⟨[], 2⟩ ∧
    linked_queue_pop_ex ((⟨[], 0⟩ : linked_queue Nat), 4) [] = .shutdown ∧
    linked_queue_pop_ex ((⟨[], 0⟩ : linked_queue Nat), 1)
      [(⟨[7], 1⟩, 1)] = .popped 7 ⟨[], 0⟩ := by
  refine ⟨(pop_ex_contract Nat).1 5 [] 3 4 [],
          (pop_ex_contract Nat).2.1 0 4 [] (by decide), ?_⟩
  rw [(pop_ex_contract Nat).2.2.1 0 1 (⟨[7], 1⟩, 1) [] (by decide)]
  exact (pop_ex_contract Nat).1 7 [] 1 1 []

/-- C9: the accept loop of start_server pushes the address of its single
stack-local connection variable for every accepted socket, so after two
accepts with no intervening pop the two in-flight payloads are the same
address, not distinct handles: the queue node chain holds the identical
payload twice and is not pairwise distinct. -/
theorem accept_pushes_alias :
    (start_server_accept_pushes 2 linked_queue_init).nodes =
      [connectionVarAddr, connectionVarAddr] ∧
    (start_server_accept_pushes 2 linked_queue_init).nodes.getD 0 1 =
      (start_server_accept_pushes 2 linked_queue_init).nodes.getD 1 2 ∧
    ¬ (start_server_accept_pushes 2 linked_queue_init).nodes.Nodup := by
  refine ⟨rfl, rfl, by decide⟩

/- ===================== Cache construction (C10) ===================== -/

theorem replicate_set_default (n : Nat) :
    (List.replicate n (default : lruCacheNode)).set 0 default =
      List.replicate n (default : lruCacheNode) := by
  cases n <;> simp [List.replicate, List.set]

/-- C10: lru_cache_init returns NULL exactly for capacities at most 0; for a
positive capacity it returns a cache with zero live nodes, total capacity as
requested, every pool slot holding empty request and digest strings, and the
head at pool slot 0 with both of its links pointing to itself (slot 0). -/
theorem lru_cache_init_spec (capacity : Int) :
    (capacity ≤ 0 → lru_cache_init capacity = none) ∧
    (0 < capacity →
      lru_cache_init capacity =
        some { head := 0,
               cachePool := List.replicate capacity.toNat ⟨none, none, 0, 0⟩,
               currentCapacity := 0,
               totalCapacity := capacity.toNat }) := by
  constructor
  · intro hle
    simp [lru_cache_init, hle]
  · intro hpos
    have hne : ¬ capacity ≤ 0 := not_le.mpr hpos
    simp only [lru_cache_init, hne, if_false]
    have hget : getNode (List.replicate capacity.toNat default) 0 = default := by
      cases capacity.toNat with
      | zero => rfl
      | succ k => rfl
    have hdef : ({ getNode (List.replicate capacity.toNat default) 0 with next := 0 }
        : lruCacheNode) = default := by rw [hget]; rfl
    simp only [setNext, hdef, replicate_set_default]
    have hdef2 : ({ getNode (List.replicate capacity.toNat default) 0 with prev := 0 }
        : lruCacheNode) = default := by rw [hget]; rfl
    simp only [setPrev, hdef2, replicate_set_default]
    rfl

/-- Witness for lru_cache_init_spec: capacity -2 yields NULL, capacity 2 the
empty two-slot cache. -/
theorem lru_cache_init_spec_witness :
    lru_cache_init (-2) = none ∧
    lru_cache_init 2 =
      some { head := 0, cachePool := List.replicate 2 ⟨none, none, 0, 0⟩,
             currentCapacity := 0, totalCapacity := 2 } :=
  ⟨(lru_cache_init_spec (-2)).1 (by decide), (lru_cache_init_spec 2).2 (by decide)⟩

/- ===================== Parser claims (C7, C8) ===================== -/

theorem tokenize_go_three (g m t : List Char) (req : request)
    (hg : g = ("get").data) :
    tokenize_request_go [g, m, t] 0 req = (SUCCESS, ⟨some m, strtoul10 t⟩) := by
  subst hg
  simp [tokenize_request_go, REQUEST_FIELDS]

theorem tokenize_go_len_ne_three (req : request) :
    ∀ ts : List (List Char), ts.length ≠ 3 →
      (tokenize_request_go ts 0 req).1 = ERROR := by
  intro ts hlen
  rcases ts with _ | ⟨a, _ | ⟨b, _ | ⟨c, _ | ⟨d, rest⟩⟩⟩⟩
  · simp [tokenize_request_go, REQUEST_FIELDS, ERROR]
  · by_cases ha : a = ("get").data <;>
      simp [tokenize_request_go, REQUEST_FIELDS, ha, ERROR]
  · by_cases ha : a = ("get").data <;>
      simp [tokenize_request_go, REQUEST_FIELDS, ha, ERROR]
  · simp at hlen
  · by_cases ha : a = ("get").data <;>
      simp [tokenize_request_go, REQUEST_FIELDS, ha, ERROR]

theorem tokenize_go_wrong_verb (req : request) :
    ∀ ts : List (List Char), ts.headD [] ≠ ("get").data →
      (tokenize_request_go ts 0 req).1 = ERROR := by
  intro ts hverb
  rcases ts with _ | ⟨a, rest⟩
  · simp [tokenize_request_go, REQUEST_FIELDS, ERROR]
  · simp only [List.headD_cons] at hverb
    simp [tokenize_request_go, hverb]

/-- C7 (amended): tokenize_request rejects a NULL buffer, any buffer whose
strtok token stream does not have exactly three tokens (this covers fewer
tokens, more tokens, an empty buffer, and buffers of only spaces), and any
buffer whose first token is not the literal get. It does NOT reject a
non-numeric third token or trailing whitespace inside the third token: with
exactly three tokens led by get it succeeds, storing an owned copy of the
second token and the strtoul value of the third (0 when the token has no
leading decimal digits). -/
theorem tokenize_request_failures (s : List Char) (req : request) :
    (tokenize_request none req = (ERROR, req)) ∧
    ((strtok_spaces s).length ≠ 3 → (tokenize_request (some s) req).1 = ERROR) ∧
    ((strtok_spaces s).headD [] ≠ ("get").data →
      (tokenize_request (some s) req).1 = ERROR) ∧
    (∀ m t : List Char, strtok_spaces s = [("get").data, m, t] →
      tokenize_request (some s) req = (SUCCESS, ⟨some m, strtoul10 t⟩)) := by
  refine ⟨rfl, ?_, ?_, ?_⟩
  · intro hlen
    simpa [tokenize_request] using tokenize_go_len_ne_three req (strtok_spaces s) hlen
  · intro hverb
    simpa [tokenize_request] using tokenize_go_wrong_verb req (strtok_spaces s) hverb
  · intro m t hts
    simp only [tokenize_request, hts]
    exact tokenize_go_three _ m t req rfl

/-- Witness for tokenize_request_failures: the buffer get foo (two tokens)
fails, the buffer put x 1 (wrong verb) fails, and get hello 57 succeeds with
message hello and delay 57. -/
theorem tokenize_request_failures_witness :
    (tokenize_request (some (("get foo").data)) ⟨none, 0⟩).1 = ERROR ∧
    (tokenize_request (some (("put x 1").data)) ⟨none, 0⟩).1 = ERROR ∧
    tokenize_request (some (("get hello 57").data)) ⟨none, 0⟩ =
      (SUCCESS, ⟨some (("hello").data), strtoul10 (("57").data)⟩) :=
  ⟨(tokenize_request_failures (("get foo").data) ⟨none, 0⟩).2.1 (by decide),
   (tokenize_request_failures (("put x 1").data) ⟨none, 0⟩).2.2.1 (by decide),
   (tokenize_request_failures (("get hello 57").data) ⟨none, 0⟩).2.2.2
     (("hello").data) (("57").data) (by decide)⟩

/-- C7 counterexample: the claim states that a non-numeric third token and
trailing newlines cause tokenize_request to fail; on the buffers
get hello xyz and get hello 5 followed by a newline it returns SUCCESS (with
delays 0 and 5), not ERROR. -/
theorem tokenize_request_counterexample :
    (tokenize_request (some (("get hello xyz").data)) ⟨none, 0⟩) =
      (SUCCESS, ⟨some (("hello").data), 0⟩) ∧
    (tokenize_request (some (("get hello 5\n").data)) ⟨none, 0⟩) =
      (SUCCESS, ⟨some (("hello").data), 5⟩) ∧
    SUCCESS ≠ ERROR := by
  refine ⟨by decide, by decide, by decide⟩

/- ===================== Decimal representation facts ===================== -/

theorem toDigitsCore_fuel_irrelevant :
    ∀ (f1 f2 n : Nat) (ds : List Char), n < f1 → n < f2 →
      Nat.toDigitsCore 10 f1 n ds = Nat.toDigitsCore 10 f2 n ds := by
  intro f1
  induction f1 with
  | zero => intro f2 n ds h1 _; omega
  | succ k ih =>
    intro f2 n ds h1 h2
    cases f2 with
    | zero => omega
    | succ m =>
      simp only [Nat.toDigitsCore]
      by_cases hz : n / 10 = 0
      · simp [hz]
      · have hlt : n / 10 < n := Nat.div_lt_self (by omega) (by omega)
        simp only [hz, if_false]
        exact ih m (n / 10) _ (by omega) (by omega)

theorem toDigitsCore_append :
    ∀ (f n : Nat) (ds : List Char), n < f →
      Nat.toDigitsCore 10 f n ds = Nat.toDigitsCore 10 f n [] ++ ds := by
  intro f
  induction f with
  | zero => intro n ds h; omega
  | succ k ih =>
    intro n ds h
    simp only [Nat.toDigitsCore]
    by_cases hz : n / 10 = 0
    · simp [hz]
    · have hlt : n / 10 < n := Nat.div_lt_self (by omega) (by omega)
      simp only [hz, if_false]
      rw [ih (n / 10) _ (by omega), ih (n / 10) [Nat.digitChar (n % 10)] (by omega)]
      simp

/-- The decimal character list of n as produced by Nat.repr. -/
theorem toDigits_eq_small (n : Nat) (h : n < 10) :
    Nat.toDigits 10 n = [Nat.digitChar n] := by
  unfold Nat.toDigits
  simp only [Nat.toDigitsCore]
  have hz : n / 10 = 0 := Nat.div_eq_of_lt h
  simp [hz, Nat.mod_eq_of_lt h]

theorem toDigits_eq_step (n : Nat) (h : 10 ≤ n) :
    Nat.toDigits 10 n = Nat.toDigits 10 (n / 10) ++ [Nat.digitChar (n % 10)] := by
  unfold Nat.toDigits
  conv_lhs => rw [Nat.toDigitsCore]
  have hz : n / 10 ≠ 0 := by
    intro hc; omega
  have hlt : n / 10 < n := Nat.div_lt_self (by omega) (by omega)
  simp only [hz, if_false]
  rw [toDigitsCore_append n (n / 10) _ (by omega)]
  have hf1 : n / 10 < n := by omega
  have hf2 : n / 10 < n / 10 + 1 := by omega
  rw [toDigitsCore_fuel_irrelevant n (n / 10 + 1) (n / 10) [] hf1 hf2]

theorem digitChar_toNat (k : Nat) (h : k < 10) :
    (Nat.digitChar k).toNat = 48 + k := by
  interval_cases k <;> rfl

theorem digitChar_isDigit (k : Nat) (h : k < 10) :
    (Nat.digitChar k).isDigit = true := by
  interval_cases k <;> rfl

theorem toDigits_all_digit (n : Nat) :
    ∀ c, c ∈ Nat.toDigits 10 n → c.isDigit = true := by
  induction n using Nat.strong_induction_on with
  | h n ih =>
    by_cases h : n < 10
    · rw [toDigits_eq_small n h]
      intro c hc
      rcases List.mem_singleton.mp hc with rfl
      exact digitChar_isDigit n h
    · rw [toDigits_eq_step n (by omega)]
      intro c hc
      rcases List.mem_append.mp hc with hc | hc
      · exact ih (n / 10) (Nat.div_lt_self (by omega) (by omega)) c hc
      · rcases List.mem_singleton.mp hc with rfl
        exact digitChar_isDigit (n % 10) (Nat.mod_lt n (by omega))

theorem toDigits_ne_nil (n : Nat) : Nat.toDigits 10 n ≠ [] := by
  by_cases h : n < 10
  · rw [toDigits_eq_small n h]; simp
  · rw [toDigits_eq_step n (by omega)]; simp

theorem toDigits_foldl_value (n : Nat) :
    (Nat.toDigits 10 n).foldl (fun a c => a * 10 + (c.toNat - 48)) 0 = n := by
  induction n using Nat.strong_induction_on with
  | _ n ih =>
    by_cases h : n < 10
    · rw [toDigits_eq_small n h]
      simp [digitChar_toNat n h]
    · rw [toDigits_eq_step n (by omega), List.foldl_append]
      rw [ih (n / 10) (Nat.div_lt_self (by omega) (by omega))]
      simp only [List.foldl_cons, List.foldl_nil]
      rw [digitChar_toNat (n % 10) (Nat.mod_lt n (by omega))]
      omega

theorem repr_data (n : Nat) : (Nat.repr n).data = Nat.toDigits 10 n := rfl

/- ===================== strtok and strtoul lemmas ===================== -/

theorem isDigit_ne_space (c : Char) (h : c.isDigit = true) : c ≠ ' ' := by
  rintro rfl
  exact absurd h (by decide)

theorem isDigit_not_spaceC (c : Char) (h : c.isDigit = true) : isSpaceC c = false := by
  cases h2 : isSpaceC c
  · rfl
  · exfalso
    simp only [isSpaceC, Bool.or_eq_true, decide_eq_true_eq] at h2
    rcases h2 with ((((hc | hc) | hc) | hc) | hc) | hc <;> subst hc <;>
      exact absurd h (by decide)

theorem isDigit_ne_minus (c : Char) (h : c.isDigit = true) : c ≠ '-' := by
  rintro rfl
  exact absurd h (by decide)

theorem isDigit_ne_plus (c : Char) (h : c.isDigit = true) : c ≠ '+' := by
  rintro rfl
  exact absurd h (by decide)

theorem takeWhile_all (p : Char → Bool) :
    ∀ l : List Char, (∀ c ∈ l, p c = true) → l.takeWhile p = l := by
  intro l
  induction l with
  | nil => intro _; rfl
  | cons c rest ih =>
    intro hall
    rw [List.takeWhile_cons]
    rw [hall c (List.mem_cons_self _ _)]
    simp [ih (fun x hx => hall x (List.mem_cons_of_mem _ hx))]

theorem tokensAux_append_space (b : List Char) :
    ∀ (a acc : List Char), (∀ c ∈ a, c ≠ ' ') → acc.reverse ++ a ≠ [] →
      tokensAux (a ++ ' ' :: b) acc = (acc.reverse ++ a) :: tokensAux b [] := by
  intro a
  induction a with
  | nil =>
    intro acc hs hne
    have hacc : acc ≠ [] := by
      intro hc; subst hc; simp at hne
    have : acc.isEmpty = false := by simpa [List.isEmpty_iff] using hacc
    simp [tokensAux, this]
  | cons c a ih =>
    intro acc hs hne
    have hc : ¬ (c = ' ') := hs c (List.mem_cons_self _ _)
    simp only [List.cons_append, tokensAux, hc, if_false]
    show tokensAux (a ++ ' ' :: b) (c :: acc) = _
    rw [ih (c :: acc) (fun x hx => hs x (List.mem_cons_of_mem _ hx)) (by simp)]
    simp

theorem tokensAux_no_space :
    ∀ (a acc : List Char), (∀ c ∈ a, c ≠ ' ') → acc.reverse ++ a ≠ [] →
      tokensAux a acc = [acc.reverse ++ a] := by
  intro a
  induction a with
  | nil =>
    intro acc hs hne
    have hacc : acc ≠ [] := by
      intro hc; subst hc; simp at hne
    have : acc.isEmpty = false := by simpa [List.isEmpty_iff] using hacc
    simp [tokensAux, this]
  | cons c a ih =>
    intro acc hs hne
    have hc : ¬ (c = ' ') := hs c (List.mem_cons_self _ _)
    simp only [tokensAux, hc, if_false]
    rw [ih (c :: acc) (fun x hx => hs x (List.mem_cons_of_mem _ hx)) (by simp)]
    simp

theorem strtok_three_tokens (msg dgt : List Char)
    (hne : msg ≠ []) (hsp : ∀ c ∈ msg, c ≠ ' ')
    (hdne : dgt ≠ []) (hdsp : ∀ c ∈ dgt, c ≠ ' ') :
    strtok_spaces (("get ").data ++ msg ++ (" ").data ++ dgt) =
      [("get").data, msg, dgt] := by
  have hg4 : ("get ").data = 'g' :: 'e' :: 't' :: ' ' :: [] := rfl
  have hg3 : ("get").data = 'g' :: 'e' :: 't' :: [] := rfl
  have hsp1 : (" ").data = [' '] := rfl
  have hshape : ("get ").data ++ msg ++ (" ").data ++ dgt =
      ("get").data ++ ' ' :: (msg ++ ' ' :: dgt) := by
    rw [hg4, hg3, hsp1]
    simp
  rw [strtok_spaces, hshape]
  rw [tokensAux_append_space _ (("get").data) [] (by decide) (by decide)]
  rw [tokensAux_append_space _ msg [] (by simpa using hsp) (by simpa using hne)]
  rw [tokensAux_no_space dgt [] hdsp (by simpa using hdne)]
  simp

theorem strtoul10_digits (dgt : List Char) (hdne : dgt ≠ [])
    (hdig : ∀ c ∈ dgt, c.isDigit = true)
    (hlt : dgt.foldl (fun a c => a * 10 + (c.toNat - 48)) 0 < 2 ^ 64) :
    strtoul10 dgt = dgt.foldl (fun a c => a * 10 + (c.toNat - 48)) 0 := by
  rcases dgt with _ | ⟨c, rest⟩
  · exact absurd rfl hdne
  · have hc : c.isDigit = true := hdig c (List.mem_cons_self _ _)
    have hdrop : (c :: rest).dropWhile isSpaceC = c :: rest := by
      rw [List.dropWhile_cons]
      simp [isDigit_not_spaceC c hc]
    have hhead : (c :: rest).headD ' ' = c := rfl
    have hsign : ¬ (c = '-' ∨ c = '+') := by
      rintro (hc2 | hc2) <;> subst hc2 <;> exact absurd hc (by decide)
    have hmf : (c = '-') = False := eq_false (isDigit_ne_minus c hc)
    simp only [strtoul10, hdrop, List.headD_cons]
    rw [if_neg hsign, takeWhile_all _ _ hdig, if_pos hlt]
    simp [hmf]

/-- C8 counterexample: the claim quantifies over every message containing no
spaces and no NUL bytes, which includes the empty message; with msg empty and
d = 0 the buffer collapses to the two tokens get and 0, and tokenize_request
returns ERROR instead of succeeding. -/
theorem parser_roundtrip_counterexample :
    (tokenize_request
        (some (("get ").data ++ [] ++ (" ").data ++ (Nat.repr 0).data))
        ⟨none, 0⟩).1 = ERROR ∧
    ERROR ≠ SUCCESS := by
  exact ⟨by decide, by decide⟩

/-- C8 (amended): for every NON-EMPTY message with no spaces and no NUL bytes
and every d below 2 to the 31, tokenize_request on the buffer get SP msg SP
str(d) succeeds, storing an owned copy of msg as the message and d as the delay. -/
theorem parser_roundtrip (msg : List Char) (d : Nat) (req : request)
    (hne : msg ≠ []) (hsp : ∀ c ∈ msg, c ≠ ' ') (hd : d < 2 ^ 31) :
    tokenize_request
        (some (("get ").data ++ msg ++ (" ").data ++ (Nat.repr d).data)) req
      = (SUCCESS, ⟨some msg, d⟩) := by
  have hdigs : ∀ c ∈ Nat.toDigits 10 d, c.isDigit = true := toDigits_all_digit d
  have hdsp : ∀ c ∈ Nat.toDigits 10 d, c ≠ ' ' :=
    fun c hcmem => isDigit_ne_space c (hdigs c hcmem)
  have hdne := toDigits_ne_nil d
  rw [repr_data]
  simp only [tokenize_request]
  rw [strtok_three_tokens msg (Nat.toDigits 10 d) hne hsp hdne hdsp]
  rw [tokenize_go_three _ _ _ _ rfl]
  have hfold := toDigits_foldl_value d
  rw [strtoul10_digits _ hdne hdigs (by rw [hfold]; exact lt_trans hd (by norm_num)),
    hfold]

/-- Witness for parser_roundtrip: message hello with delay 57. -/
theorem parser_roundtrip_witness :
    tokenize_request
        (some (("get ").data ++ ("hello").data ++ (" ").data ++ (Nat.repr 57).data))
        ⟨none, 0⟩
      = (SUCCESS, ⟨some (("hello").data), 57⟩) :=
  parser_roundtrip (("hello").data) 57 ⟨none, 0⟩ (by decide) (by decide) (by decide)

/- ===================== MD5 claims (C4) ===================== -/

theorem hexChars_getD_mem (k : Nat) (h : k < 16) : hexChars.getD k 'x' ∈ hexChars := by
  rw [List.getD_eq_getElem?_getD, List.getElem?_eq_getElem (by simpa [hexChars] using h)]
  exact List.getElem_mem _

theorem and_f0_shift_lt (x : Nat) : (x &&& 0xf0) >>> 4 < 16 := by
  have h1 : x &&& 0xf0 ≤ 0xf0 := Nat.and_le_right
  have h2 : (x &&& 0xf0) >>> 4 = (x &&& 0xf0) / 16 := by
    simp [Nat.shiftRight_eq_div_pow]
  omega

theorem and_0f_lt (x : Nat) : x &&& 0x0f < 16 := by
  have h1 : x &&& 0x0f ≤ 0x0f := Nat.and_le_right
  omega

theorem string_mk_length (cs : List Char) : (String.mk cs).length = cs.length := rfl

theorem string_mk_data (cs : List Char) : (String.mk cs).data = cs := rfl

set_option maxRecDepth 8192 in
/-- C4: md5String produces exactly 32 characters drawn from the lowercase hex
alphabet for every input string, and on the RFC 1321 test inputs it produces
the published digests. -/
theorem md5String_spec :
    (∀ input : String, (md5String input).length = 32 ∧
      ∀ c ∈ (md5String input).data, c ∈ hexChars) ∧
    md5String ("") = ("d41d8cd98f00b204e9800998ecf8427e") ∧
    md5String ("a") = ("0cc175b9c0f1b6a831c399e269772661") ∧
    md5String ("abc") = ("900150983cd24fb0d6963f7d28e17f72") := by
  refine ⟨?_, by decide, by decide, by decide⟩
  intro input
  constructor
  · simp only [md5String, string_mk_length]
    rw [show List.range 16 = [0, 1, 2, 3, 4, 5, 6, 7, 8, 9, 10, 11, 12, 13, 14, 15]
      from rfl]
    simp
  · intro c hc
    simp only [md5String, string_mk_data] at hc
    rcases List.mem_flatMap.mp hc with ⟨i, _, hci⟩
    simp only [List.mem_cons, List.not_mem_nil, or_false] at hci
    rcases hci with hci | hci
    · exact hci ▸ hexChars_getD_mem _ (and_f0_shift_lt _)
    · exact hci ▸ hexChars_getD_mem _ (and_0f_lt _)

/- ===================== Pool access lemmas ===================== -/

theorem getNode_set (pool : List lruCacheNode) (i j : Nat) (nd : lruCacheNode) :
    getNode (pool.set i nd) j =
      if i = j ∧ i < pool.length then nd else getNode pool j := by
  unfold getNode
  rw [List.getD_eq_getElem?_getD, List.getD_eq_getElem?_getD, List.getElem?_set]
  by_cases hij : i = j
  · subst hij
    by_cases hlen : i < pool.length
    · simp [hlen]
    · have hnone : pool[i]? = none := List.getElem?_eq_none (by omega)
      simp [hlen, hnone]
  · simp [hij]

theorem getNode_setNext (pool : List lruCacheNode) (i v j : Nat) :
    getNode (setNext pool i v) j =
      if i = j ∧ i < pool.length then { getNode pool i with next := v }
      else getNode pool j := by
  unfold setNext
  exact getNode_set pool i j _

theorem getNode_setPrev (pool : List lruCacheNode) (i v j : Nat) :
    getNode (setPrev pool i v) j =
      if i = j ∧ i < pool.length then { getNode pool i with prev := v }
      else getNode pool j := by
  unfold setPrev
  exact getNode_set pool i j _

theorem length_setNext (pool : List lruCacheNode) (i v : Nat) :
    (setNext pool i v).length = pool.length := by
  unfold setNext; exact List.length_set ..

theorem length_setPrev (pool : List lruCacheNode) (i v : Nat) :
    (setPrev pool i v).length = pool.length := by
  unfold setPrev; exact List.length_set ..

theorem request_setNext (pool : List lruCacheNode) (i v j : Nat) :
    (getNode (setNext pool i v) j).request = (getNode pool j).request := by
  rw [getNode_setNext]
  split
  · rename_i h; rw [h.1]
  · rfl

theorem request_setPrev (pool : List lruCacheNode) (i v j : Nat) :
    (getNode (setPrev pool i v) j).request = (getNode pool j).request := by
  rw [getNode_setPrev]
  split
  · rename_i h; rw [h.1]
  · rfl

theorem md5_setNext (pool : List lruCacheNode) (i v j : Nat) :
    (getNode (setNext pool i v) j).md5 = (getNode pool j).md5 := by
  rw [getNode_setNext]
  split
  · rename_i h; rw [h.1]
  · rfl

theorem md5_setPrev (pool : List lruCacheNode) (i v j : Nat) :
    (getNode (setPrev pool i v) j).md5 = (getNode pool j).md5 := by
  rw [getNode_setPrev]
  split
  · rename_i h; rw [h.1]
  · rfl

/- ===================== Capacity lemmas and C2 ===================== -/

theorem get_element_capacity (cache : lruCache) (k : String) :
    (lru_cache_get_element cache k).2.currentCapacity = cache.currentCapacity ∧
    (lru_cache_get_element cache k).2.totalCapacity = cache.totalCapacity := by
  unfold lru_cache_get_element
  rcases lru_find_element cache.cachePool k cache.currentCapacity with _ | i
  · exact ⟨rfl, rfl⟩
  · by_cases hi : i = cache.head <;> simp [hi]

theorem update_node_capacity (cache : lruCache) (k v : String) :
    (lru_cache_update_node cache k v).totalCapacity = cache.totalCapacity ∧
    ((lru_cache_update_node cache k v).currentCapacity =
      if cache.currentCapacity < cache.totalCapacity then cache.currentCapacity + 1
      else cache.currentCapacity) := by
  unfold lru_cache_update_node
  by_cases hf : cache.currentCapacity < cache.totalCapacity <;> simp [hf]

theorem execOp_capacity_le (cache : lruCache) (op : CacheOp)
    (h : cache.currentCapacity ≤ cache.totalCapacity) :
    (execOp cache op).currentCapacity ≤ (execOp cache op).totalCapacity := by
  rcases op with k | ⟨k, v⟩
  · show (lru_cache_get_element cache k).2.currentCapacity ≤
      (lru_cache_get_element cache k).2.totalCapacity
    rw [(get_element_capacity cache k).1, (get_element_capacity cache k).2]
    exact h
  · show (lru_cache_update_node cache k v).currentCapacity ≤
      (lru_cache_update_node cache k v).totalCapacity
    rw [(update_node_capacity cache k v).1, (update_node_capacity cache k v).2]
    split
    · rename_i hlt; omega
    · exact h

theorem execOps_capacity_le (ops : List CacheOp) :
    ∀ cache : lruCache, cache.currentCapacity ≤ cache.totalCapacity →
      (execOps cache ops).currentCapacity ≤ (execOps cache ops).totalCapacity := by
  induction ops with
  | nil => intro cache h; exact h
  | cons op rest ih =>
    intro cache h
    exact ih (execOp cache op) (execOp_capacity_le cache op h)

/-- C2: on a cache built by lru_cache_init with any capacity, after every
sequence of get (lru_cache_get_element) and put (lru_cache_update_node)
operations the live-node count satisfies 0 <= currentCapacity <= totalCapacity;
instantiating the sequence at each prefix gives the bound after every single
operation. currentCapacity is a natural, so the lower bound is intrinsic. -/
theorem cache_capacity_invariant (capacity : Int) (start : lruCache)
    (ops : List CacheOp) (hinit : lru_cache_init capacity = some start) :
    0 ≤ (execOps start ops).currentCapacity ∧
    (execOps start ops).currentCapacity ≤ (execOps start ops).totalCapacity := by
  refine ⟨Nat.zero_le _, ?_⟩
  apply execOps_capacity_le
  unfold lru_cache_init at hinit
  by_cases hc : capacity ≤ 0
  · simp [hc] at hinit
  · simp only [hc, if_false, Option.some.injEq] at hinit
    rw [← hinit]
    exact Nat.zero_le _

/-- Witness for cache_capacity_invariant: capacity 1 and two puts. -/
theorem cache_capacity_invariant_witness :
    0 ≤ (execOps (initCache 1)
          [CacheOp.put ("a") ("da"), CacheOp.put ("b") ("db")]).currentCapacity ∧
    (execOps (initCache 1)
        [CacheOp.put ("a") ("da"), CacheOp.put ("b") ("db")]).currentCapacity ≤
      (execOps (initCache 1)
        [CacheOp.put ("a") ("da"), CacheOp.put ("b") ("db")]).totalCapacity :=
  cache_capacity_invariant 1 (initCache 1)
    [CacheOp.put ("a") ("da"), CacheOp.put ("b") ("db")] (by decide)

/- ===================== Find and fill lemmas (C1) ===================== -/

theorem range_find?_eq_some (p : Nat → Bool) (n i : Nat) (hi : i < n)
    (hp : p i = true) (hmin : ∀ j, j < i → p j = false) :
    (List.range n).find? p = some i := by
  rw [List.find?_eq_some]
  refine ⟨hp, (List.range n).take i, (List.range n).drop (i + 1), ?_, ?_⟩
  · have hlen : i < (List.range n).length := by simpa using hi
    have hdrop := List.getElem_cons_drop (List.range n) i hlen
    rw [List.getElem_range] at hdrop
    rw [hdrop]
    exact (List.take_append_drop i (List.range n)).symm
  · intro a ha
    rw [List.take_range] at ha
    have : a < min i n := List.mem_range.mp ha
    simp [hmin a (by omega)]

theorem range_find?_eq_none (p : Nat → Bool) (n : Nat)
    (hall : ∀ j, j < n → p j = false) :
    (List.range n).find? p = none := by
  rw [List.find?_eq_none]
  intro x hx
  simp [hall x (List.mem_range.mp hx)]

theorem nodup_getD_ne (l : List String) (hnd : l.Nodup) (i j : Nat)
    (hi : i < l.length) (hj : j < l.length) (hij : i ≠ j) :
    l.getD i "" ≠ l.getD j "" := by
  rw [List.getD_eq_getElem?_getD, List.getD_eq_getElem?_getD,
    List.getElem?_eq_getElem hi, List.getElem?_eq_getElem hj]
  simp only [Option.getD_some]
  intro h
  exact hij ((List.Nodup.getElem_inj_iff hnd).mp h)

theorem init_ofNat (n : Nat) (hn : 0 < n) :
    lru_cache_init (Int.ofNat n) = some (initCache n) := by
  unfold lru_cache_init initCache
  have hneg : ¬ ((Int.ofNat n) ≤ 0) := by
    simp only [Int.ofNat_eq_coe]
    omega
  rw [if_neg hneg]
  have htn : (Int.ofNat n).toNat = n := rfl
  rw [htn]
  have hget : getNode (List.replicate n default) 0 = default := by
    cases n with
    | zero => rfl
    | succ k => rfl
  have hdef : ({ getNode (List.replicate n default) 0 with next := 0 }
      : lruCacheNode) = default := by rw [hget]; rfl
  simp only [setNext, hdef, replicate_set_default]
  have hdef2 : ({ getNode (List.replicate n default) 0 with prev := 0 }
      : lruCacheNode) = default := by rw [hget]; rfl
  simp only [setPrev, hdef2, replicate_set_default]

theorem fillOps_take_succ (ks ds : List String) (m : Nat)
    (hk : m < ks.length) (hd : m < ds.length) :
    fillOps (ks.take (m + 1)) (ds.take (m + 1)) =
      fillOps (ks.take m) (ds.take m) ++
        [CacheOp.put (ks.getD m "") (ds.getD m "")] := by
  unfold fillOps
  rw [List.take_succ, List.take_succ,
    List.getElem?_eq_getElem hk, List.getElem?_eq_getElem hd]
  rw [List.zip_append (by simp [List.length_take]; omega)]
  rw [List.map_append]
  rw [List.getD_eq_getElem?_getD, List.getD_eq_getElem?_getD,
    List.getElem?_eq_getElem hk, List.getElem?_eq_getElem hd]
  rfl

theorem filled_base (n : Nat) (hn : 0 < n) (ks ds : List String) :
    FilledState n 0 ks ds (initCache n) := by
  refine ⟨rfl, rfl, by simp [initCache], rfl, ?_, ?_⟩
  · show (getNode (List.replicate n default) (0 - 1)).prev = 0
    cases n with
    | zero => rfl
    | succ k => rfl
  · intro j hj
    omega

theorem prev_setNext (pool : List lruCacheNode) (i v j : Nat) :
    (getNode (setNext pool i v) j).prev = (getNode pool j).prev := by
  rw [getNode_setNext]
  split
  · rename_i h; rw [h.1]
  · rfl

theorem next_setPrev (pool : List lruCacheNode) (i v j : Nat) :
    (getNode (setPrev pool i v) j).next = (getNode pool j).next := by
  rw [getNode_setPrev]
  split
  · rename_i h; rw [h.1]
  · rfl

theorem chain_prev (q : List lruCacheNode) (m u hd : Nat)
    (hm : m < q.length) (hnext : (getNode q m).next = hd)
    (hsafe2 : hd = m → u = m) :
    (getNode (setPrev (setNext (setPrev q m u)
        ((getNode (setPrev q m u) m).prev) m)
        ((getNode (setNext (setPrev q m u)
            ((getNode (setPrev q m u) m).prev) m) m).next) m) m).prev = u := by
  have hR1 : (getNode (setPrev q m u) m).prev = u := by
    rw [getNode_setPrev]
    simp [hm]
  rw [hR1]
  by_cases hum : u = m
  · subst hum
    have hR2 : (getNode (setNext (setPrev q u u) u u) u).next = u := by
      rw [getNode_setNext]
      simp [length_setPrev, hm]
    rw [hR2, getNode_setPrev]
    simp [length_setNext, length_setPrev, hm]
  · have hR2 : (getNode (setNext (setPrev q m u) u m) m).next = hd := by
      rw [getNode_setNext]
      simp only [length_setPrev]
      rw [if_neg (by tauto)]
      rw [next_setPrev, hnext]
    rw [hR2, getNode_setPrev]
    rw [if_neg (by intro hcon; exact hum (hsafe2 hcon.1))]
    rw [prev_setNext, hR1]

theorem update_notfull_prev (cache : lruCache) (k v : String)
    (hlt : cache.currentCapacity < cache.totalCapacity)
    (hpl : cache.cachePool.length = cache.totalCapacity)
    (hsafe : cache.head = cache.currentCapacity →
      (getNode cache.cachePool cache.head).prev = cache.currentCapacity) :
    (getNode (lru_cache_update_node cache k v).cachePool
        cache.currentCapacity).prev = (getNode cache.cachePool cache.head).prev := by
  have hmlt : cache.currentCapacity < cache.cachePool.length := by omega
  unfold lru_cache_update_node
  rw [if_pos hlt]
  simp only [prev_setNext, next_setPrev]
  rw [show (getNode (cache.cachePool.set cache.currentCapacity
      { getNode cache.cachePool cache.currentCapacity with
        request := some k, md5 := some v }) cache.head).prev =
      (getNode cache.cachePool cache.head).prev from by
    rw [getNode_set]
    split
    · rename_i h; rw [← h.1]
    · rfl]
  refine chain_prev _ _ _ cache.head ?_ ?_ ?_
  · simp [length_setNext, List.length_set, hmlt]
  · rw [getNode_setNext]
    simp [List.length_set, hmlt]
  · intro hhm
    exact hsafe hhm

theorem update_notfull_core (cache : lruCache) (k v : String)
    (hlt : cache.currentCapacity < cache.totalCapacity)
    (hpl : cache.cachePool.length = cache.totalCapacity) :
    (lru_cache_update_node cache k v).head = cache.currentCapacity ∧
    (lru_cache_update_node cache k v).currentCapacity = cache.currentCapacity + 1 ∧
    (lru_cache_update_node cache k v).totalCapacity = cache.totalCapacity ∧
    (lru_cache_update_node cache k v).cachePool.length = cache.cachePool.length ∧
    (getNode (lru_cache_update_node cache k v).cachePool
        cache.currentCapacity).request = some k ∧
    (getNode (lru_cache_update_node cache k v).cachePool
        cache.currentCapacity).md5 = some v ∧
    (∀ j, j ≠ cache.currentCapacity →
      (getNode (lru_cache_update_node cache k v).cachePool j).request =
        (getNode cache.cachePool j).request ∧
      (getNode (lru_cache_update_node cache k v).cachePool j).md5 =
        (getNode cache.cachePool j).md5) := by
  have hmlt : cache.currentCapacity < cache.cachePool.length := by omega
  refine ⟨?_, ?_, ?_, ?_, ?_, ?_, ?_⟩
  · unfold lru_cache_update_node
    rw [if_pos hlt]
  · unfold lru_cache_update_node
    rw [if_pos hlt]
  · unfold lru_cache_update_node
    rw [if_pos hlt]
  · unfold lru_cache_update_node
    rw [if_pos hlt]
    simp only [length_setPrev, length_setNext, List.length_set]
  · unfold lru_cache_update_node
    rw [if_pos hlt]
    simp only [request_setPrev, request_setNext, getNode_set]
    simp [hmlt]
  · unfold lru_cache_update_node
    rw [if_pos hlt]
    simp only [md5_setPrev, md5_setNext, getNode_set]
    simp [hmlt]
  · intro j hj
    constructor
    · unfold lru_cache_update_node
      rw [if_pos hlt]
      simp only [request_setPrev, request_setNext, getNode_set]
      rw [if_neg (by intro hcon; exact hj hcon.1.symm)]
    · unfold lru_cache_update_node
      rw [if_pos hlt]
      simp only [md5_setPrev, md5_setNext, getNode_set]
      rw [if_neg (by intro hcon; exact hj hcon.1.symm)]

theorem filled_step (n m : Nat) (ks ds : List String) (cache : lruCache)
    (hfs : FilledState n m ks ds cache) (hm : m < n) :
    FilledState n (m + 1) ks ds
      (lru_cache_update_node cache (ks.getD m "") (ds.getD m "")) := by
  obtain ⟨htot, hcur, hlen, hhead, hprev0, hcontent⟩ := hfs
  have hlt : cache.currentCapacity < cache.totalCapacity := by omega
  have hpl : cache.cachePool.length = cache.totalCapacity := hlen.trans htot.symm
  have hsafe : cache.head = cache.currentCapacity →
      (getNode cache.cachePool cache.head).prev = cache.currentCapacity := by
    intro hh
    rw [hhead, hcur] at hh
    have hm0 : m = 0 := by omega
    rw [hhead, hprev0, hcur, hm0]
  obtain ⟨h1, h2, h3, h4, h5, h6, h78⟩ :=
    update_notfull_core cache (ks.getD m "") (ds.getD m "") hlt hpl
  have h7 := update_notfull_prev cache (ks.getD m "") (ds.getD m "") hlt hpl hsafe
  rw [hcur] at h1 h2 h5 h6 h7 h78
  refine ⟨h3.trans htot, by rw [h2], h4.trans hlen, by rw [h1]; omega, ?_, ?_⟩
  · show (getNode (lru_cache_update_node cache (ks.getD m "") (ds.getD m "")).cachePool
      (m + 1 - 1)).prev = 0
    have hidx : m + 1 - 1 = m := rfl
    rw [hidx, h7, hhead]
    exact hprev0
  · intro j hj
    by_cases hjm : j = m
    · subst hjm
      exact ⟨h5, h6⟩
    · have hjlt : j < m := by omega
      rcases h78 j hjm with ⟨hr, hm5⟩
      rcases hcontent j hjlt with ⟨hcr, hcm⟩
      exact ⟨hr.trans hcr, hm5.trans hcm⟩

theorem execOps_append_one (cache : lruCache) (ops : List CacheOp) (op : CacheOp) :
    execOps cache (ops ++ [op]) = execOp (execOps cache ops) op := by
  unfold execOps
  rw [List.foldl_append]
  rfl

theorem fill_reaches (n : Nat) (hn : 0 < n) (ks ds : List String) :
    ∀ m, m ≤ n → m ≤ ks.length → m ≤ ds.length →
      FilledState n m ks ds
        (execOps (initCache n) (fillOps (ks.take m) (ds.take m))) := by
  intro m
  induction m with
  | zero =>
    intro _ _ _
    exact filled_base n hn ks ds
  | succ m ih =>
    intro h1 h2 h3
    rw [fillOps_take_succ ks ds m (by omega) (by omega), execOps_append_one]
    exact filled_step n m ks ds _ (ih (by omega) (by omega) (by omega)) (by omega)

theorem update_full_shape (cache : lruCache) (k v : String)
    (hfull : ¬ cache.currentCapacity < cache.totalCapacity) :
    lru_cache_update_node cache k v =
      { cache with
        cachePool := cache.cachePool.set ((getNode cache.cachePool cache.head).prev)
          { getNode cache.cachePool ((getNode cache.cachePool cache.head).prev) with
            request := some k, md5 := some v },
        head := (getNode cache.cachePool cache.head).prev } := by
  unfold lru_cache_update_node
  rw [if_neg hfull]

theorem get_element_miss (cache : lruCache) (k : String)
    (hfind : lru_find_element cache.cachePool k cache.currentCapacity = none) :
    lru_cache_get_element cache k = (none, cache) := by
  unfold lru_cache_get_element
  rw [hfind]

theorem get_element_found (cache : lruCache) (k : String) (i : Nat)
    (hfind : lru_find_element cache.cachePool k cache.currentCapacity = some i) :
    (lru_cache_get_element cache k).1 = (getNode cache.cachePool i).md5 ∧
    (lru_cache_get_element cache k).2.head = i := by
  unfold lru_cache_get_element
  rw [hfind]
  by_cases hi : i = cache.head
  · simp [hi]
  · simp only [hi, if_false]
    constructor
    · simp only [md5_setPrev, md5_setNext]
    · trivial

/-- C1: on a fresh cache of capacity N > 0, after puts of N+1 distinct keys
k1..k(N+1) (indices 0..N here) with no intervening gets, get(k1) returns none
while get(ki) returns the stored digest for every i in 2..N+1; the node the
final put evicts is the LRU node head->prev of the pre-put state, which
becomes the new head and is overwritten in place, every next and prev link of
every pool slot staying exactly as it was (no relinking). -/
theorem lru_fill_and_evict (n : Nat) (ks ds : List String) (start : lruCache)
    (hn : 0 < n) (hks : ks.length = n + 1) (hds : ds.length = n + 1)
    (hnd : ks.Nodup)
    (hinit : lru_cache_init (Int.ofNat n) = some start) :
    (lru_cache_get_element (execOps start (fillOps ks ds)) (ks.getD 0 "")).1
        = none ∧
    (∀ i, 1 ≤ i → i ≤ n →
      (lru_cache_get_element (execOps start (fillOps ks ds)) (ks.getD i "")).1
        = some (ds.getD i "")) ∧
    (execOps start (fillOps ks ds)).head =
      (getNode (execOps start (fillOps (ks.take n) (ds.take n))).cachePool
        (execOps start (fillOps (ks.take n) (ds.take n))).head).prev ∧
    (execOps start (fillOps ks ds)).cachePool =
      (execOps start (fillOps (ks.take n) (ds.take n))).cachePool.set
        (execOps start (fillOps ks ds)).head
        { getNode (execOps start (fillOps (ks.take n) (ds.take n))).cachePool
            (execOps start (fillOps ks ds)).head with
          request := some (ks.getD n ""), md5 := some (ds.getD n "") } ∧
    (∀ j, (getNode (execOps start (fillOps ks ds)).cachePool j).next =
        (getNode (execOps start (fillOps (ks.take n) (ds.take n))).cachePool j).next ∧
      (getNode (execOps start (fillOps ks ds)).cachePool j).prev =
        (getNode (execOps start (fillOps (ks.take n) (ds.take n))).cachePool j).prev) := by
  have hstart : start = initCache n :=
    Option.some_inj.mp (hinit.symm.trans (init_ofNat n hn))
  subst hstart
  obtain ⟨htot, hcur, hlen, hhead, hprev0, hcontent⟩ :=
    fill_reaches n hn ks ds n (le_refl n) (by omega) (by omega)
  have h1 : ks.take (n + 1) = ks := by rw [← hks]; exact List.take_length ks
  have h2 : ds.take (n + 1) = ds := by rw [← hds]; exact List.take_length ds
  have hops : fillOps ks ds =
      fillOps (ks.take n) (ds.take n) ++
        [CacheOp.put (ks.getD n "") (ds.getD n "")] := by
    conv_lhs => rw [← h1, ← h2]
    exact fillOps_take_succ ks ds n (by omega) (by omega)
  rw [hops, execOps_append_one]
  have hfull : ¬ (execOps (initCache n) (fillOps (ks.take n) (ds.take n))).currentCapacity <
      (execOps (initCache n) (fillOps (ks.take n) (ds.take n))).totalCapacity := by
    rw [hcur, htot]
    omega
  simp only [execOp]
  rw [update_full_shape _ _ _ hfull, hhead, hprev0]
  set cF := execOps (initCache n) (fillOps (ks.take n) (ds.take n)) with hcF
  set nd0 : lruCacheNode := { getNode cF.cachePool 0 with
    request := some (ks.getD n ""), md5 := some (ds.getD n "") } with hnd0
  set cFin : lruCache := { cF with cachePool := cF.cachePool.set 0 nd0, head := 0 }
    with hcFin
  have hlenF : cFin.cachePool.length = n := by
    show (cF.cachePool.set 0 nd0).length = n
    rw [List.length_set]
    exact hlen
  have hcurF : cFin.currentCapacity = n := hcur
  have hslot0 : getNode cFin.cachePool 0 = nd0 := by
    show getNode (cF.cachePool.set 0 nd0) 0 = nd0
    rw [getNode_set, if_pos ⟨rfl, by omega⟩]
  have hslotj : ∀ j, j ≠ 0 → getNode cFin.cachePool j = getNode cF.cachePool j := by
    intro j hj
    show getNode (cF.cachePool.set 0 nd0) j = _
    rw [getNode_set, if_neg (by intro hcon; exact hj hcon.1.symm)]
  have hkne : ∀ a b, a < n + 1 → b < n + 1 → a ≠ b →
      ks.getD a "" ≠ ks.getD b "" := by
    intro a b ha hb hab
    exact nodup_getD_ne ks hnd a b (by omega) (by omega) hab
  refine ⟨?_, ?_, rfl, rfl, ?_⟩
  · have hfind : lru_find_element cFin.cachePool (ks.getD 0 "")
        cFin.currentCapacity = none := by
      unfold lru_find_element
      apply range_find?_eq_none
      intro j hj
      rw [hcurF] at hj
      by_cases hj0 : j = 0
      · subst hj0
        show decide ((getNode cFin.cachePool 0).request = some (ks.getD 0 "")) = false
        rw [hslot0]
        apply decide_eq_false
        intro hcon
        exact hkne n 0 (by omega) (by omega) (by omega) (Option.some.inj hcon)
      · show decide ((getNode cFin.cachePool j).request = some (ks.getD 0 "")) = false
        rw [hslotj j hj0]
        apply decide_eq_false
        intro hcon
        rw [(hcontent j hj).1] at hcon
        exact hkne j 0 (by omega) (by omega) hj0 (Option.some.inj hcon)
    rw [get_element_miss cFin _ hfind]
  · intro i h1i hin
    by_cases hiN : i = n
    · subst hiN
      have hfind : lru_find_element cFin.cachePool (ks.getD i "")
          cFin.currentCapacity = some 0 := by
        unfold lru_find_element
        apply range_find?_eq_some
        · rw [hcurF]; omega
        · show decide ((getNode cFin.cachePool 0).request = some (ks.getD i "")) = true
          rw [hslot0]
          apply decide_eq_true
          rfl
        · intro j hj
          omega
      rcases get_element_found cFin _ 0 hfind with ⟨hres, _⟩
      rw [hres, hslot0]
    · have hilt : i < n := by omega
      have hfind : lru_find_element cFin.cachePool (ks.getD i "")
          cFin.currentCapacity = some i := by
        unfold lru_find_element
        apply range_find?_eq_some
        · rw [hcurF]; omega
        · show decide ((getNode cFin.cachePool i).request = some (ks.getD i "")) = true
          rw [hslotj i (by omega)]
          apply decide_eq_true
          exact (hcontent i hilt).1
        · intro j hj
          by_cases hj0 : j = 0
          · subst hj0
            show decide ((getNode cFin.cachePool 0).request = some (ks.getD i "")) = false
            rw [hslot0]
            apply decide_eq_false
            intro hcon
            exact hkne n i (by omega) (by omega) (by omega) (Option.some.inj hcon)
          · show decide ((getNode cFin.cachePool j).request = some (ks.getD i "")) = false
            rw [hslotj j hj0]
            apply decide_eq_false
            intro hcon
            rw [(hcontent j (by omega)).1] at hcon
            exact hkne j i (by omega) (by omega) (by omega) (Option.some.inj hcon)
      rcases get_element_found cFin _ i hfind with ⟨hres, _⟩
      rw [hres, hslotj i (by omega)]
      exact (hcontent i hilt).2
  · intro j
    by_cases hj0 : j = 0
    · subst hj0
      rw [hslot0]
      exact ⟨rfl, rfl⟩
    · rw [hslotj j hj0]
      exact ⟨rfl, rfl⟩

/-- Witness for lru_fill_and_evict: capacity 2 with keys k1 k2 k3. -/
theorem lru_fill_and_evict_witness :
    (lru_cache_get_element
        (execOps (initCache 2)
          (fillOps [("k1"), ("k2"), ("k3")] [("d1"), ("d2"), ("d3")]))
        ((["k1", "k2", "k3"] : List String).getD 0 "")).1 = none :=
  (lru_fill_and_evict 2 [("k1"), ("k2"), ("k3")] [("d1"), ("d2"), ("d3")]
    (initCache 2) (by decide) (by decide) (by decide) (by decide) (by decide)).1

theorem get_element_preserves (cache : lruCache) (k : String) :
    (lru_cache_get_element cache k).2.cachePool.length = cache.cachePool.length ∧
    (lru_cache_get_element cache k).2.currentCapacity = cache.currentCapacity ∧
    (lru_cache_get_element cache k).2.totalCapacity = cache.totalCapacity ∧
    ∀ j, (getNode (lru_cache_get_element cache k).2.cachePool j).request =
           (getNode cache.cachePool j).request ∧
         (getNode (lru_cache_get_element cache k).2.cachePool j).md5 =
           (getNode cache.cachePool j).md5 := by
  unfold lru_cache_get_element
  rcases h : lru_find_element cache.cachePool k cache.currentCapacity with _ | i
  · simp
  · by_cases hi : i = cache.head
    · simp [hi]
    · simp [hi, length_setPrev, length_setNext, request_setPrev,
        request_setNext, md5_setPrev, md5_setNext]

theorem splice_far (cache : lruCache) (k : String) (idx p s0 hd L : Nat)
    (hfind : lru_find_element cache.cachePool k cache.currentCapacity = some idx)
    (hhd : hd = cache.head)
    (hidxlt : idx < cache.cachePool.length) (hplt : p < cache.cachePool.length)
    (hs0lt : s0 < cache.cachePool.length) (hhdlt : hd < cache.cachePool.length)
    (hLlt : L < cache.cachePool.length)
    (hprv : (getNode cache.cachePool idx).prev = p)
    (hnxt : (getNode cache.cachePool idx).next = s0)
    (hphd : (getNode cache.cachePool hd).prev = L)
    (hpi : p ≠ idx) (hs0hd : s0 ≠ hd) (hs0i : s0 ≠ idx) (hLi : L ≠ idx)
    (hLp : L ≠ p) (hihd : idx ≠ hd) :
    nxt (lru_cache_get_element cache k).2 idx = hd ∧
    prv (lru_cache_get_element cache k).2 idx = L ∧
    nxt (lru_cache_get_element cache k).2 p = s0 ∧
    prv (lru_cache_get_element cache k).2 s0 = p ∧
    nxt (lru_cache_get_element cache k).2 L = idx ∧
    prv (lru_cache_get_element cache k).2 hd = idx ∧
    (∀ j, j ≠ p → j ≠ idx → j ≠ L →
      nxt (lru_cache_get_element cache k).2 j = (getNode cache.cachePool j).next) ∧
    (∀ j, j ≠ s0 → j ≠ idx → j ≠ hd →
      prv (lru_cache_get_element cache k).2 j = (getNode cache.cachePool j).prev) := by
  subst hhd
  unfold lru_cache_get_element nxt prv
  simp only [hfind]
  rw [if_neg hihd]
  rw [hprv, hnxt]
  rw [show (getNode (setNext cache.cachePool p s0) idx).next = s0 from by
    rw [getNode_setNext, if_neg (by intro hcon; exact hpi hcon.1)]; exact hnxt]
  rw [show (getNode (setNext cache.cachePool p s0) idx).prev = p from by
    rw [prev_setNext]; exact hprv]
  rw [show (getNode (setNext (setPrev (setNext cache.cachePool p s0) s0 p)
      idx cache.head) cache.head).prev = L from by
    rw [prev_setNext]
    rw [getNode_setPrev, if_neg (by intro hcon; exact hs0hd hcon.1)]
    rw [prev_setNext]; exact hphd]
  rw [show (getNode (setPrev (setNext (setPrev (setNext cache.cachePool p s0) s0 p)
      idx cache.head) idx L) idx).prev = L from by
    rw [getNode_setPrev, if_pos ⟨rfl, by
      simp only [length_setNext, length_setPrev]; exact hidxlt⟩]]
  rw [show (getNode (setNext (setPrev (setNext (setPrev (setNext cache.cachePool p s0)
      s0 p) idx cache.head) idx L) L idx) idx).next = cache.head from by
    rw [getNode_setNext, if_neg (by intro hcon; exact hLi hcon.1)]
    rw [next_setPrev]
    rw [getNode_setNext, if_pos ⟨rfl, by
      simp only [length_setNext, length_setPrev]; exact hidxlt⟩]]
  simp only []
  refine ⟨?_, ?_, ?_, ?_, ?_, ?_, ?_, ?_⟩
  · -- next of idx
    rw [next_setPrev, getNode_setNext, if_neg (by intro hcon; exact hLi hcon.1),
      next_setPrev, getNode_setNext,
      if_pos ⟨rfl, by simp only [length_setNext, length_setPrev]; exact hidxlt⟩]
  · -- prev of idx
    rw [getNode_setPrev, if_neg (by intro hcon; exact hihd hcon.1.symm),
      prev_setNext, getNode_setPrev,
      if_pos ⟨rfl, by simp only [length_setNext, length_setPrev]; exact hidxlt⟩]
  · -- next of p
    rw [next_setPrev, getNode_setNext, if_neg (by intro hcon; exact hLp hcon.1),
      next_setPrev, getNode_setNext, if_neg (by intro hcon; exact hpi hcon.1.symm),
      next_setPrev, getNode_setNext,
      if_pos ⟨rfl, hplt⟩]
  · -- prev of s0
    rw [getNode_setPrev, if_neg (by intro hcon; exact hs0hd hcon.1.symm),
      prev_setNext, getNode_setPrev, if_neg (by intro hcon; exact hs0i hcon.1.symm),
      prev_setNext, getNode_setPrev,
      if_pos ⟨rfl, by simp only [length_setNext, length_setPrev]; exact hs0lt⟩]
  · -- next of L
    rw [next_setPrev, getNode_setNext,
      if_pos ⟨rfl, by simp only [length_setNext, length_setPrev]; exact hLlt⟩]
  · -- prev of hd
    rw [getNode_setPrev,
      if_pos ⟨rfl, by simp only [length_setNext, length_setPrev]; exact hhdlt⟩]
  · -- next elsewhere
    intro j hjp hji hjL
    rw [next_setPrev, getNode_setNext, if_neg (by intro hcon; exact hjL hcon.1.symm),
      next_setPrev, getNode_setNext, if_neg (by intro hcon; exact hji hcon.1.symm),
      next_setPrev, getNode_setNext, if_neg (by intro hcon; exact hjp hcon.1.symm)]
  · -- prev elsewhere
    intro j hjs hji hjhd
    rw [getNode_setPrev, if_neg (by intro hcon; exact hjhd hcon.1.symm),
      prev_setNext, getNode_setPrev, if_neg (by intro hcon; exact hji hcon.1.symm),
      prev_setNext, getNode_setPrev, if_neg (by intro hcon; exact hjs hcon.1.symm),
      prev_setNext]

theorem splice_near (cache : lruCache) (k : String) (idx p hd : Nat)
    (hfind : lru_find_element cache.cachePool k cache.currentCapacity = some idx)
    (hhd : hd = cache.head)
    (hidxlt : idx < cache.cachePool.length) (hplt : p < cache.cachePool.length)
    (hhdlt : hd < cache.cachePool.length)
    (hprv : (getNode cache.cachePool idx).prev = p)
    (hnxt : (getNode cache.cachePool idx).next = hd)
    (hpi : p ≠ idx) (hihd : idx ≠ hd) :
    nxt (lru_cache_get_element cache k).2 idx = hd ∧
    prv (lru_cache_get_element cache k).2 idx = p ∧
    nxt (lru_cache_get_element cache k).2 p = idx ∧
    prv (lru_cache_get_element cache k).2 hd = idx ∧
    (∀ j, j ≠ p → j ≠ idx →
      nxt (lru_cache_get_element cache k).2 j = (getNode cache.cachePool j).next) ∧
    (∀ j, j ≠ hd → j ≠ idx →
      prv (lru_cache_get_element cache k).2 j = (getNode cache.cachePool j).prev) := by
  subst hhd
  unfold lru_cache_get_element nxt prv
  simp only [hfind]
  rw [if_neg hihd]
  rw [hprv, hnxt]
  rw [show (getNode (setNext cache.cachePool p cache.head) idx).next = cache.head
      from by
    rw [getNode_setNext, if_neg (by intro hcon; exact hpi hcon.1)]; exact hnxt]
  rw [show (getNode (setNext cache.cachePool p cache.head) idx).prev = p from by
    rw [prev_setNext]; exact hprv]
  rw [show (getNode (setNext (setPrev (setNext cache.cachePool p cache.head)
      cache.head p) idx cache.head) cache.head).prev = p from by
    rw [prev_setNext]
    rw [getNode_setPrev,
      if_pos ⟨rfl, by simp only [length_setNext]; exact hhdlt⟩]]
  rw [show (getNode (setPrev (setNext (setPrev (setNext cache.cachePool p cache.head)
      cache.head p) idx cache.head) idx p) idx).prev = p from by
    rw [getNode_setPrev, if_pos ⟨rfl, by
      simp only [length_setNext, length_setPrev]; exact hidxlt⟩]]
  rw [show (getNode (setNext (setPrev (setNext (setPrev (setNext cache.cachePool p
      cache.head) cache.head p) idx cache.head) idx p) p idx) idx).next = cache.head
      from by
    rw [getNode_setNext, if_neg (by intro hcon; exact hpi hcon.1)]
    rw [next_setPrev]
    rw [getNode_setNext, if_pos ⟨rfl, by
      simp only [length_setNext, length_setPrev]; exact hidxlt⟩]]
  simp only []
  refine ⟨?_, ?_, ?_, ?_, ?_, ?_⟩
  · rw [next_setPrev, getNode_setNext, if_neg (by intro hcon; exact hpi hcon.1),
      next_setPrev, getNode_setNext,
      if_pos ⟨rfl, by simp only [length_setNext, length_setPrev]; exact hidxlt⟩]
  · rw [getNode_setPrev, if_neg (by intro hcon; exact hihd hcon.1.symm),
      prev_setNext, getNode_setPrev,
      if_pos ⟨rfl, by simp only [length_setNext, length_setPrev]; exact hidxlt⟩]
  · rw [next_setPrev, getNode_setNext,
      if_pos ⟨rfl, by simp only [length_setNext, length_setPrev]; exact hplt⟩]
  · rw [getNode_setPrev,
      if_pos ⟨rfl, by simp only [length_setNext, length_setPrev]; exact hhdlt⟩]
  · intro j hjp hji
    rw [next_setPrev, getNode_setNext, if_neg (by intro hcon; exact hjp hcon.1.symm),
      next_setPrev, getNode_setNext, if_neg (by intro hcon; exact hji hcon.1.symm),
      next_setPrev, getNode_setNext, if_neg (by intro hcon; exact hjp hcon.1.symm)]
  · intro j hjhd hji
    rw [getNode_setPrev, if_neg (by intro hcon; exact hjhd hcon.1.symm),
      prev_setNext, getNode_setPrev, if_neg (by intro hcon; exact hji hcon.1.symm),
      prev_setNext, getNode_setPrev, if_neg (by intro hcon; exact hjhd hcon.1.symm),
      prev_setNext]

theorem put_links (cache : lruCache) (k v : String) (u : Nat)
    (hlt : cache.currentCapacity < cache.totalCapacity)
    (hpl : cache.cachePool.length = cache.totalCapacity)
    (hu : (getNode cache.cachePool cache.head).prev = u)
    (hhdm : cache.head ≠ cache.currentCapacity)
    (hum : u ≠ cache.currentCapacity)
    (hhdlt : cache.head < cache.cachePool.length)
    (hult : u < cache.cachePool.length) :
    nxt (lru_cache_update_node cache k v) cache.currentCapacity = cache.head ∧
    prv (lru_cache_update_node cache k v) cache.currentCapacity = u ∧
    nxt (lru_cache_update_node cache k v) u = cache.currentCapacity ∧
    prv (lru_cache_update_node cache k v) cache.head = cache.currentCapacity ∧
    (∀ j, j ≠ cache.currentCapacity → j ≠ u →
      nxt (lru_cache_update_node cache k v) j = (getNode cache.cachePool j).next) ∧
    (∀ j, j ≠ cache.currentCapacity → j ≠ cache.head →
      prv (lru_cache_update_node cache k v) j = (getNode cache.cachePool j).prev) := by
  have hmlt : cache.currentCapacity < cache.cachePool.length := by omega
  unfold lru_cache_update_node nxt prv
  rw [if_pos hlt]
  simp only []
  rw [show (getNode (setNext (cache.cachePool.set cache.currentCapacity
      { getNode cache.cachePool cache.currentCapacity with
        request := some k, md5 := some v }) cache.currentCapacity cache.head)
      cache.head).prev = u from by
    rw [prev_setNext, getNode_set]
    split
    · rename_i h
      rw [← h.1] at hu
      rw [← hu]
    · exact hu]
  rw [show (getNode (setPrev (setNext (cache.cachePool.set cache.currentCapacity
      { getNode cache.cachePool cache.currentCapacity with
        request := some k, md5 := some v }) cache.currentCapacity cache.head)
      cache.currentCapacity u) cache.currentCapacity).prev = u from by
    rw [getNode_setPrev, if_pos ⟨rfl, by
      simp only [length_setNext, List.length_set]; exact hmlt⟩]]
  rw [show (getNode (setNext (setPrev (setNext (cache.cachePool.set
      cache.currentCapacity { getNode cache.cachePool cache.currentCapacity with
        request := some k, md5 := some v }) cache.currentCapacity cache.head)
      cache.currentCapacity u) u cache.currentCapacity)
      cache.currentCapacity).next = cache.head from by
    rw [getNode_setNext, if_neg (by intro hcon; exact hum hcon.1)]
    rw [next_setPrev]
    rw [getNode_setNext, if_pos ⟨rfl, by
      simp only [List.length_set]; exact hmlt⟩]]
  refine ⟨?_, ?_, ?_, ?_, ?_, ?_⟩
  · rw [next_setPrev, getNode_setNext, if_neg (by intro hcon; exact hum hcon.1),
      next_setPrev, getNode_setNext,
      if_pos ⟨rfl, by simp only [List.length_set]; exact hmlt⟩]
  · rw [getNode_setPrev, if_neg (by intro hcon; exact hhdm hcon.1),
      prev_setNext, getNode_setPrev, if_pos ⟨rfl, by
        simp only [length_setNext, List.length_set]; exact hmlt⟩]
  · rw [next_setPrev, getNode_setNext, if_pos ⟨rfl, by
      simp only [length_setPrev, length_setNext, List.length_set]; exact hult⟩]
  · rw [getNode_setPrev, if_pos ⟨rfl, by
      simp only [length_setNext, length_setPrev, List.length_set]; exact hhdlt⟩]
  · intro j hjm hju
    rw [next_setPrev, getNode_setNext, if_neg (by intro hcon; exact hju hcon.1.symm),
      next_setPrev, getNode_setNext, if_neg (by intro hcon; exact hjm hcon.1.symm),
      getNode_set, if_neg (by intro hcon; exact hjm hcon.1.symm)]
  · intro j hjm hjhd
    rw [getNode_setPrev, if_neg (by intro hcon; exact hjhd hcon.1.symm),
      prev_setNext, getNode_setPrev, if_neg (by intro hcon; exact hjm hcon.1.symm),
      prev_setNext, getNode_set, if_neg (by intro hcon; exact hjm hcon.1.symm)]

theorem put_links0 (cache : lruCache) (k v : String)
    (hcur0 : cache.currentCapacity = 0)
    (hpos : 0 < cache.totalCapacity)
    (hpl : cache.cachePool.length = cache.totalCapacity)
    (hh0 : cache.head = 0)
    (hp0 : (getNode cache.cachePool 0).prev = 0) :
    nxt (lru_cache_update_node cache k v) 0 = 0 ∧
    prv (lru_cache_update_node cache k v) 0 = 0 := by
  have hlt : cache.currentCapacity < cache.totalCapacity := by omega
  have h0lt : (0 : Nat) < cache.cachePool.length := by omega
  unfold lru_cache_update_node nxt prv
  rw [if_pos hlt]
  simp only [hcur0, hh0]
  rw [show (getNode (setNext (cache.cachePool.set 0
      { getNode cache.cachePool 0 with
        request := some k, md5 := some v }) 0 0) 0).prev = 0 from by
    rw [prev_setNext, getNode_set, if_pos ⟨rfl, h0lt⟩]
    exact hp0]
  rw [show (getNode (setPrev (setNext (cache.cachePool.set 0
      { getNode cache.cachePool 0 with
        request := some k, md5 := some v }) 0 0) 0 0) 0).prev = 0 from by
    rw [getNode_setPrev, if_pos ⟨rfl, by
      simp only [length_setNext, List.length_set]; exact h0lt⟩]]
  rw [show (getNode (setNext (setPrev (setNext (cache.cachePool.set 0
      { getNode cache.cachePool 0 with
        request := some k, md5 := some v }) 0 0) 0 0) 0 0) 0).next = 0 from by
    rw [getNode_setNext, if_pos ⟨rfl, by
      simp only [length_setPrev, length_setNext, List.length_set]; exact h0lt⟩]]
  constructor
  · rw [next_setPrev, getNode_setNext, if_pos ⟨rfl, by
      simp only [length_setPrev, length_setNext, List.length_set]; exact h0lt⟩]
  · rw [getNode_setPrev, if_pos ⟨rfl, by
      simp only [length_setNext, length_setPrev, List.length_set]; exact h0lt⟩]

theorem update_full_links (cache : lruCache) (k v : String)
    (hfull : ¬ cache.currentCapacity < cache.totalCapacity) :
    (lru_cache_update_node cache k v).head =
      (getNode cache.cachePool cache.head).prev ∧
    (lru_cache_update_node cache k v).currentCapacity = cache.currentCapacity ∧
    (lru_cache_update_node cache k v).totalCapacity = cache.totalCapacity ∧
    (lru_cache_update_node cache k v).cachePool.length = cache.cachePool.length ∧
    (∀ j, nxt (lru_cache_update_node cache k v) j = (getNode cache.cachePool j).next ∧
      prv (lru_cache_update_node cache k v) j = (getNode cache.cachePool j).prev) ∧
    ((getNode cache.cachePool cache.head).prev < cache.cachePool.length →
      (getNode (lru_cache_update_node cache k v).cachePool
        ((getNode cache.cachePool cache.head).prev)).request = some k) ∧
    (∀ j, j ≠ (getNode cache.cachePool cache.head).prev →
      (getNode (lru_cache_update_node cache k v).cachePool j).request =
        (getNode cache.cachePool j).request) := by
  rw [update_full_shape cache k v hfull]
  refine ⟨rfl, rfl, rfl, List.length_set .., ?_, ?_, ?_⟩
  · intro j
    unfold nxt prv
    constructor
    · show (getNode (cache.cachePool.set _ _) j).next = _
      rw [getNode_set]
      split
      · rename_i h; rw [h.1]
      · rfl
    · show (getNode (cache.cachePool.set _ _) j).prev = _
      rw [getNode_set]
      split
      · rename_i h; rw [h.1]
      · rfl
  · intro hlt
    show (getNode (cache.cachePool.set _ _) _).request = some k
    rw [getNode_set, if_pos ⟨rfl, hlt⟩]
  · intro j hj
    show (getNode (cache.cachePool.set _ _) j).request = _
    rw [getNode_set, if_neg (by intro hcon; exact hj hcon.1.symm)]

theorem chain'_adj_transfer (c c2 : lruCache) :
    ∀ l : List Nat, List.Chain' (Adj c) l →
      (∀ a ∈ l.dropLast, nxt c2 a = nxt c a) →
      (∀ b ∈ l.tail, prv c2 b = prv c b) →
      List.Chain' (Adj c2) l := by
  intro l
  induction l with
  | nil => intro _ _ _; exact List.chain'_nil
  | cons a t ih =>
    cases t with
    | nil => intro _ _ _; simp
    | cons b t2 =>
      intro hch hn hp
      rw [List.chain'_cons] at hch ⊢
      refine ⟨⟨?_, ?_⟩, ih hch.2 ?_ ?_⟩
      · exact (hn a (by simp)).trans hch.1.1
      · exact (hp b (by simp)).trans hch.1.2
      · intro x hx
        refine hn x ?_
        rcases (b :: t2).eq_nil_or_concat with hnil | ⟨t3, y, hy⟩
        · simp at hnil
        · rw [List.concat_eq_append] at hy
          rw [hy] at hx ⊢
          rw [List.dropLast_concat] at hx
          rw [← List.cons_append, List.dropLast_concat]
          exact List.mem_cons_of_mem _ hx
      · intro x hx
        exact hp x (List.mem_cons_of_mem _ hx)

theorem nodup_decomp (h0 idx : Nat) (A B : List Nat)
    (hnd : (h0 :: (A ++ idx :: B)).Nodup) :
    h0 ∉ A ∧ h0 ∉ B ∧ h0 ≠ idx ∧ idx ∉ A ∧ idx ∉ B ∧
    (∀ a ∈ A, a ∉ B) ∧ A.Nodup ∧ B.Nodup := by
  simp only [List.nodup_cons, List.nodup_append, List.nodup_cons,
    List.mem_append, List.mem_cons, List.disjoint_cons_right] at hnd
  obtain ⟨hh, hA, ⟨hiB, hB⟩, hdisj⟩ := hnd
  push_neg at hh
  exact ⟨hh.1, hh.2.2, hh.2.1, hdisj.1, hiB, fun a ha hb => hdisj.2 ha hb, hA, hB⟩

theorem getLastD_eq_getLast (l : List Nat) (h : l ≠ []) (d : Nat) :
    l.getLastD d = l.getLast h := by
  rw [List.getLastD_eq_getLast?, List.getLast?_eq_getLast l h]
  rfl

theorem getLastD_irrel (l : List Nat) (h : l ≠ []) (d1 d2 : Nat) :
    l.getLastD d1 = l.getLastD d2 := by
  rw [getLastD_eq_getLast l h d1, getLastD_eq_getLast l h d2]

theorem getLastD_append_right (l1 l2 : List Nat) (h : l2 ≠ []) :
    ∀ d, (l1 ++ l2).getLastD d = l2.getLastD d := by
  induction l1 with
  | nil => intro d; rfl
  | cons a t ih =>
    intro d
    rw [List.cons_append, List.getLastD_cons, ih a, getLastD_irrel l2 h a d]

theorem getLastD_mem (l : List Nat) (h : l ≠ []) : l.getLastD 0 ∈ l := by
  rw [getLastD_eq_getLast l h 0]
  exact List.getLast_mem h

theorem getLastD_not_mem_dropLast (l : List Nat) (hnd : l.Nodup) (h : l ≠ []) :
    l.getLastD 0 ∉ l.dropLast := by
  rw [getLastD_eq_getLast l h 0]
  have hsplit : l.dropLast ++ [l.getLast h] = l := List.dropLast_append_getLast h
  rw [← hsplit] at hnd
  simp only [List.nodup_append, List.nodup_cons, List.disjoint_cons_right] at hnd
  intro hc
  exact hnd.2.2.1 hc

theorem eq_of_decomp_nodup (a : Nat) :
    ∀ (X : List Nat) (Y X2 Y2 : List Nat),
      (X ++ a :: Y).Nodup → X ++ a :: Y = X2 ++ a :: Y2 → X = X2 ∧ Y = Y2 := by
  intro X
  induction X with
  | nil =>
    intro Y X2 Y2 hnd he
    cases X2 with
    | nil => simp at he; exact ⟨rfl, he⟩
    | cons b X2t =>
      exfalso
      rw [List.nil_append, List.cons_append] at he
      have hb : a = b := (List.cons_eq_cons.mp he).1
      have hY : Y = X2t ++ a :: Y2 := (List.cons_eq_cons.mp he).2
      have haY : a ∉ Y := (List.nodup_cons.mp hnd).1
      rw [hY] at haY
      exact haY (by simp)
  | cons x Xt ih =>
    intro Y X2 Y2 hnd he
    cases X2 with
    | nil =>
      exfalso
      rw [List.cons_append, List.nil_append] at he
      have hb : x = a := (List.cons_eq_cons.mp he).1
      have hx : x ∉ Xt ++ a :: Y := (List.nodup_cons.mp (by rw [List.cons_append] at hnd; exact hnd)).1
      rw [hb] at hx
      exact hx (by simp)
    | cons b X2t =>
      rw [List.cons_append, List.cons_append] at he
      have hb : x = b := (List.cons_eq_cons.mp he).1
      have ht : Xt ++ a :: Y = X2t ++ a :: Y2 := (List.cons_eq_cons.mp he).2
      have hndt : (Xt ++ a :: Y).Nodup :=
        (List.nodup_cons.mp (by rw [List.cons_append] at hnd; exact hnd)).2
      obtain ⟨h1, h2⟩ := ih Y X2t Y2 hndt ht
      exact ⟨by rw [hb, h1], h2⟩

theorem ring_get_miss (cache : lruCache) (r : List Nat) (k : String)
    (hr : IsRing cache r)
    (hfind : lru_find_element cache.cachePool k cache.currentCapacity = none) :
    IsRing (lru_cache_get_element cache k).2 r := by
  rw [get_element_miss cache k hfind]
  exact hr

theorem ring_put0 (cache : lruCache) (r : List Nat) (k v : String)
    (hr : IsRing cache r) (hcur0 : cache.currentCapacity = 0) :
    IsRing (lru_cache_update_node cache k v) [0] := by
  obtain ⟨hne, hnd, hhead, hch, hwrap, hmem, hlen, hpl, hcap, htp⟩ := hr
  have hr0 : r = [0] := by
    rcases hmem with ⟨_, h⟩ | h
    · exact h
    · exfalso
      rcases r with _ | ⟨a, t⟩
      · exact hne rfl
      · have := (h a).mp (by simp)
        omega
  subst hr0
  have hh0 : cache.head = 0 := by simpa using hhead.symm
  have hp0 : (getNode cache.cachePool 0).prev = 0 := by
    have hw := hwrap.2
    simp only [List.getLastD, List.headD, hh0] at hw
    rw [← hh0] at hw ⊢
    exact hw
  have hlt : cache.currentCapacity < cache.totalCapacity := by omega
  obtain ⟨h1, h2, h3, h4, _, _, _⟩ := update_notfull_core cache k v hlt hpl
  obtain ⟨hn0, hpv0⟩ := put_links0 cache k v hcur0 htp hpl hh0 hp0
  refine ⟨by simp, by simp, ?_, ?_, ?_, ?_, ?_, ?_, ?_, ?_⟩
  · rw [h1, hcur0]
    rfl
  · simp
  · exact ⟨hn0, hpv0⟩
  · refine Or.inr ?_
    intro i
    rw [h2, hcur0]
    simp only [List.mem_singleton]
    omega
  · rw [h2, hcur0]
    simp
  · rw [h4, hpl, h3]
  · rw [h2, h3, hcur0]
    omega
  · rw [h3]
    exact htp

theorem ring_put_notfull (cache : lruCache) (r : List Nat) (k v : String)
    (hr : IsRing cache r) (hm1 : 1 ≤ cache.currentCapacity)
    (hlt : cache.currentCapacity < cache.totalCapacity) :
    IsRing (lru_cache_update_node cache k v) (cache.currentCapacity :: r) := by
  obtain ⟨hne, hnd, hhead, hch, hwrap, hmem, hlen, hpl, hcap, htp⟩ := hr
  have hmemr : ∀ i, i ∈ r ↔ i < cache.currentCapacity := by
    rcases hmem with ⟨h0, _⟩ | h
    · omega
    · exact h
  have hrlt : ∀ j, j ∈ r → j < cache.cachePool.length := by
    intro j hj
    have := (hmemr j).mp hj
    omega
  have hheadr : cache.head ∈ r := by
    rcases r with _ | ⟨h0, t⟩
    · exact absurd rfl hne
    · simp only [List.headD_cons] at hhead
      rw [← hhead]
      simp
  have hhdlt : cache.head < cache.cachePool.length := hrlt _ hheadr
  have hhdm : cache.head ≠ cache.currentCapacity := by
    have := (hmemr _).mp hheadr
    omega
  have hu : (getNode cache.cachePool cache.head).prev = r.getLastD 0 := by
    have hw := hwrap.2
    rw [hhead] at hw
    exact hw
  have hur : r.getLastD 0 ∈ r := getLastD_mem r hne
  have hult : r.getLastD 0 < cache.cachePool.length := hrlt _ hur
  have hum : r.getLastD 0 ≠ cache.currentCapacity := by
    have := (hmemr _).mp hur
    omega
  have hheadtail : cache.head ∉ r.tail := by
    rcases r with _ | ⟨h0, t⟩
    · simp
    · simp only [List.headD_cons] at hhead
      rw [List.tail_cons, ← hhead]
      exact (List.nodup_cons.mp hnd).1
  obtain ⟨hl1, hl2, hl3, hl4, hl5, hl6⟩ :=
    put_links cache k v (r.getLastD 0) hlt hpl hu hhdm hum hhdlt hult
  obtain ⟨h1, h2, h3, h4, _, _, _⟩ := update_notfull_core cache k v hlt hpl
  refine ⟨by simp, ?_, ?_, ?_, ?_, ?_, ?_, ?_, ?_, ?_⟩
  · rw [List.nodup_cons]
    refine ⟨fun hc => ?_, hnd⟩
    have := (hmemr _).mp hc
    omega
  · rw [List.headD_cons, h1]
  · refine List.chain'_cons'.mpr ⟨?_, ?_⟩
    · intro y hy
      rcases r with _ | ⟨h0, t⟩
      · exact absurd rfl hne
      · simp only [List.head?_cons, Option.mem_def, Option.some.injEq] at hy
        subst hy
        simp only [List.headD_cons] at hhead
        rw [hhead]
        exact ⟨hl1, hl4⟩
    · refine chain'_adj_transfer cache _ r hch ?_ ?_
      · intro a ha
        have har : a ∈ r := (List.dropLast_sublist r).subset ha
        have ham : a ≠ cache.currentCapacity := by
          have := (hmemr _).mp har
          omega
        have hau : a ≠ r.getLastD 0 := by
          intro hc
          rw [hc] at ha
          exact getLastD_not_mem_dropLast r hnd hne ha
        exact hl5 a ham hau
      · intro b hb
        have hbr : b ∈ r := List.mem_of_mem_tail hb
        have hbm : b ≠ cache.currentCapacity := by
          have := (hmemr _).mp hbr
          omega
        have hbh : b ≠ cache.head := by
          intro hc
          rw [hc] at hb
          exact hheadtail hb
        exact hl6 b hbm hbh
  · rw [List.getLastD_cons, List.headD_cons, getLastD_irrel r hne _ 0]
    exact ⟨hl3, hl2⟩
  · refine Or.inr ?_
    intro i
    rw [h2]
    simp only [List.mem_cons]
    rw [hmemr i]
    omega
  · rw [List.length_cons, h2, hlen]
    omega
  · rw [h4, h3]
    exact hpl
  · rw [h2, h3]
    omega
  · rw [h3]
    exact htp

theorem ring_put_full (cache : lruCache) (r : List Nat) (k v : String)
    (hr : IsRing cache r) (hfull : ¬ cache.currentCapacity < cache.totalCapacity) :
    IsRing (lru_cache_update_node cache k v) (r.getLastD 0 :: r.dropLast) := by
  obtain ⟨hne, hnd, hhead, hch, hwrap, hmem, hlen, hpl, hcap, htp⟩ := hr
  have hrpos : 0 < r.length := List.length_pos.mpr hne
  obtain ⟨f1, f2, f3, f4, f5, f6, f7⟩ := update_full_links cache k v hfull
  have hu : (getNode cache.cachePool cache.head).prev = r.getLastD 0 := by
    have hw := hwrap.2
    rw [hhead] at hw
    exact hw
  have hAdj : ∀ a b, Adj cache a b → Adj (lru_cache_update_node cache k v) a b := by
    intro a b hab
    exact ⟨(f5 a).1.trans hab.1, (f5 b).2.trans hab.2⟩
  have hsp : r.dropLast ++ [r.getLastD 0] = r := by
    rw [getLastD_eq_getLast r hne 0]
    exact List.dropLast_append_getLast hne
  refine ⟨by simp, ?_, ?_, ?_, ?_, ?_, ?_, ?_, ?_, ?_⟩
  · rw [List.nodup_cons]
    exact ⟨getLastD_not_mem_dropLast r hnd hne,
      List.Nodup.sublist (List.dropLast_sublist r) hnd⟩
  · rw [List.headD_cons, f1, hu]
  · refine List.chain'_cons'.mpr ⟨?_, ?_⟩
    · intro y hy
      rcases r with _ | ⟨h0, t⟩
      · exact absurd rfl hne
      · rcases t with _ | ⟨h1, t2⟩
        · simp at hy
        · simp only [List.dropLast_cons₂, List.head?_cons, Option.mem_def,
            Option.some.injEq] at hy
          subst hy
          refine hAdj _ _ ?_
          have hw := hwrap
          simp only [List.headD_cons] at hw
          exact hw
    · exact List.Chain'.imp hAdj ( List.Chain'.prefix hch ( List.dropLast_prefix r))
  · rw [List.getLastD_cons, List.headD_cons]
    rcases hdl : r.dropLast with _ | ⟨d0, dt⟩
    · have hr1 : r = [r.getLastD 0] := by
        rw [← hsp, hdl]
        rfl
      show Adj (lru_cache_update_node cache k v) (r.getLastD 0) (r.getLastD 0)
      refine hAdj _ _ ?_
      have hhd : r.headD 0 = r.getLastD 0 := by
        conv_lhs => rw [hr1]
        rfl
      nth_rewrite 2 [← hhd]
      exact hwrap
    · have hdne : r.dropLast ≠ [] := by rw [hdl]; simp
      rw [← hdl, getLastD_irrel r.dropLast hdne _ 0]
      refine hAdj _ _ ?_
      have hch2 : List.Chain' (Adj cache) (r.dropLast ++ [r.getLastD 0]) := by
        rw [hsp]
        exact hch
      obtain ⟨-, -, hglue⟩ := List.chain'_append.mp hch2
      refine hglue _ ?_ _ ?_
      · rw [getLastD_eq_getLast r.dropLast hdne 0]
        exact List.getLast?_eq_getLast r.dropLast hdne
      · rfl
  · refine Or.inr ?_
    intro i
    rw [f2]
    have hperm : i ∈ (r.getLastD 0 :: r.dropLast) ↔ i ∈ r := by
      conv_rhs => rw [← hsp]
      simp only [List.mem_cons, List.mem_append, List.mem_singleton]
      tauto
    rw [hperm]
    rcases hmem with ⟨h0, hr0⟩ | h
    · rw [hr0, h0]
      simp
      omega
    · exact h i
  · rw [List.length_cons, List.length_dropLast, f2, ← hlen]
    omega
  · rw [f4, f3]
    exact hpl
  · rw [f2, f3]
    exact hcap
  · rw [f3]
    exact htp

set_option maxHeartbeats 1000000 in
theorem ring_get_hit (cache : lruCache) (k : String) (idx : Nat) (X Y : List Nat)
    (hr : IsRing cache (X ++ idx :: Y))
    (hfind : lru_find_element cache.cachePool k cache.currentCapacity = some idx) :
    IsRing (lru_cache_get_element cache k).2 (idx :: (X ++ Y)) := by
  obtain ⟨hne, hnd, hhead, hch, hwrap, hmem, hlen, hpl, hcap, htp⟩ := hr
  have hfind' : (List.range cache.currentCapacity).find?
      (fun i => (getNode cache.cachePool i).request = some k) = some idx := hfind
  have hcur0 : 0 < cache.currentCapacity := by
    have := List.mem_range.mp (List.mem_of_find?_eq_some hfind')
    omega
  have hmemr : ∀ i, i ∈ X ++ idx :: Y ↔ i < cache.currentCapacity := by
    rcases hmem with ⟨h0, _⟩ | h
    · omega
    · exact h
  have hrlt : ∀ j, j ∈ X ++ idx :: Y → j < cache.cachePool.length := by
    intro j hj
    have := (hmemr j).mp hj
    omega
  obtain ⟨g1, g2, g3, g4⟩ := get_element_preserves cache k
  have hfd := get_element_found cache k idx hfind
  rcases X with _ | ⟨h0, A⟩
  · simp only [List.nil_append] at hne hnd hhead hch hwrap hmem hlen hmemr hrlt ⊢
    have hih : idx = cache.head := by simpa using hhead
    have hgc : (lru_cache_get_element cache k).2 = cache := by
      unfold lru_cache_get_element
      simp only [hfind]
      rw [if_pos hih]
    rw [hgc]
    exact ⟨hne, hnd, hhead, hch, hwrap, hmem, hlen, hpl, hcap, htp⟩
  · obtain ⟨hh0A, hh0Y, hh0i, hiA, hiY, hdisj, hndA, hndY⟩ :=
      nodup_decomp h0 idx A Y (by rw [← List.cons_append]; exact hnd)
    have hndX : (h0 :: A).Nodup := List.nodup_cons.mpr ⟨hh0A, hndA⟩
    have hhead' : h0 = cache.head := by simpa using hhead
    have hihd : idx ≠ cache.head := by
      rw [← hhead']
      exact fun hc => hh0i hc.symm
    have hXne : (h0 :: A) ≠ [] := by simp
    have hpmem : (h0 :: A).getLastD 0 ∈ h0 :: A := getLastD_mem _ hXne
    have hpi : (h0 :: A).getLastD 0 ≠ idx := by
      intro hc
      rw [hc] at hpmem
      rcases List.mem_cons.mp hpmem with h | h
      · exact hh0i h.symm
      · exact hiA h
    have hch' := List.chain'_split.mp hch
    have hApre : Adj cache ((h0 :: A).getLastD 0) idx := by
      obtain ⟨-, -, hglue⟩ := List.chain'_append.mp hch'.1
      refine hglue _ ?_ _ ?_
      · rw [getLastD_eq_getLast _ hXne 0]
        exact List.getLast?_eq_getLast _ hXne
      · rfl
    have hprv : (getNode cache.cachePool idx).prev = (h0 :: A).getLastD 0 := hApre.2
    have hchA : List.Chain' (Adj cache) (h0 :: A) := (List.chain'_append.mp hch'.1).1
    have hchY : List.Chain' (Adj cache) (idx :: Y) := hch'.2
    have hidxlt : idx < cache.cachePool.length := hrlt idx (by simp)
    have hplt : (h0 :: A).getLastD 0 < cache.cachePool.length :=
      hrlt _ (List.mem_append.mpr (Or.inl hpmem))
    have hhdlt : cache.head < cache.cachePool.length := by
      rw [← hhead']
      exact hrlt h0 (by simp)
    rcases Y with _ | ⟨s0, Y'⟩
    · -- the found node is adjacent to the head: near splice
      have hwrapi : Adj cache idx h0 := by
        have hw := hwrap
        rw [show ((h0 :: A) ++ [idx]).getLastD 0 = idx from by
          rw [getLastD_append_right (h0 :: A) [idx] (by simp) 0]
          rfl] at hw
        exact hw
      have hnxt : (getNode cache.cachePool idx).next = cache.head := by
        rw [← hhead']
        exact hwrapi.1
      obtain ⟨s1, s2, s3, s4, s5, s6⟩ :=
        splice_near cache k idx ((h0 :: A).getLastD 0) cache.head hfind rfl
          hidxlt hplt hhdlt hprv hnxt hpi hihd
      simp only [List.append_nil]
      refine ⟨by simp, ?_, ?_, ?_, ?_, ?_, ?_, ?_, ?_, ?_⟩
      · rw [List.nodup_cons]
        refine ⟨?_, hndX⟩
        intro hc
        rcases List.mem_cons.mp hc with h | h
        · exact hh0i h.symm
        · exact hiA h
      · rw [List.headD_cons]
        exact hfd.2.symm
      · refine List.chain'_cons'.mpr ⟨?_, ?_⟩
        · intro y hy
          simp only [List.head?_cons, Option.mem_def, Option.some.injEq] at hy
          subst hy
          refine ⟨?_, ?_⟩
          · rw [s1]
            exact hhead'.symm
          · rw [hhead']
            exact s4
        · refine chain'_adj_transfer cache _ (h0 :: A) hchA ?_ ?_
          · intro a ha
            have haX : a ∈ h0 :: A := (List.dropLast_sublist _).subset ha
            have hap : a ≠ (h0 :: A).getLastD 0 := by
              intro hc
              rw [hc] at ha
              exact getLastD_not_mem_dropLast _ hndX hXne ha
            have hai : a ≠ idx := by
              intro hc
              rw [hc] at haX
              rcases List.mem_cons.mp haX with h | h
              · exact hh0i h.symm
              · exact hiA h
            exact s5 a hap hai
          · intro b hb
            have hbA : b ∈ A := by
              rw [List.tail_cons] at hb
              exact hb
            have hbhd : b ≠ cache.head := by
              rw [← hhead']
              intro hc
              rw [hc] at hbA
              exact hh0A hbA
            have hbi : b ≠ idx := fun hc => hiA (hc ▸ hbA)
            exact s6 b hbhd hbi
      · rw [List.headD_cons, List.getLastD_cons, getLastD_irrel (h0 :: A) hXne idx 0]
        exact ⟨s3, s2⟩
      · refine Or.inr ?_
        intro i
        rw [g2, ← hmemr i]
        simp only [List.mem_cons, List.mem_append, List.mem_singleton]
        tauto
      · rw [g2]
        simp only [List.length_cons, List.length_append, List.length_nil] at hlen ⊢
        omega
      · rw [g1, g3]
        exact hpl
      · rw [g2, g3]
        exact hcap
      · rw [g3]
        exact htp
    · -- the found node sits strictly inside the ring: far splice
      have hYne : (s0 :: Y') ≠ [] := by simp
      have hnxt : (getNode cache.cachePool idx).next = s0 := (List.chain'_cons.mp hchY).1.1
      have hLmem : (s0 :: Y').getLastD 0 ∈ s0 :: Y' := getLastD_mem _ hYne
      have hLlt : (s0 :: Y').getLastD 0 < cache.cachePool.length :=
        hrlt _ (List.mem_append.mpr (Or.inr (List.mem_cons_of_mem _ hLmem)))
      have hs0lt : s0 < cache.cachePool.length :=
        hrlt _ (List.mem_append.mpr (Or.inr (by simp)))
      have hphd : (getNode cache.cachePool cache.head).prev = (s0 :: Y').getLastD 0 := by
        have hw := hwrap.2
        rw [show ((h0 :: A) ++ idx :: s0 :: Y').headD 0 = h0 from rfl] at hw
        rw [getLastD_append_right (h0 :: A) (idx :: s0 :: Y') (by simp) 0] at hw
        rw [List.getLastD_cons] at hw
        rw [getLastD_irrel (s0 :: Y') hYne idx 0] at hw
        rw [hhead'] at hw
        exact hw
      have hs0hd : s0 ≠ cache.head := by
        intro hc
        have h : h0 = s0 := hhead'.trans hc.symm
        exact hh0Y (by rw [h]; simp)
      have hs0i : s0 ≠ idx := by
        intro hc
        refine hiY ?_
        rw [← hc]
        simp
      have hLi : (s0 :: Y').getLastD 0 ≠ idx := fun hc => hiY (hc ▸ hLmem)
      have hLp : (s0 :: Y').getLastD 0 ≠ (h0 :: A).getLastD 0 := by
        intro hc
        rcases List.mem_cons.mp hpmem with h | h
        · rw [hc, h] at hLmem
          exact hh0Y hLmem
        · rw [hc] at hLmem
          exact hdisj _ h hLmem
      obtain ⟨s1, s2, s3, s4, s5, s6, s7, s8⟩ :=
        splice_far cache k idx ((h0 :: A).getLastD 0) s0 cache.head
          ((s0 :: Y').getLastD 0) hfind rfl hidxlt hplt hs0lt hhdlt hLlt
          hprv hnxt hphd hpi hs0hd hs0i hLi hLp hihd
      refine ⟨by simp, ?_, ?_, ?_, ?_, ?_, ?_, ?_, ?_, ?_⟩
      · rw [List.nodup_cons]
        constructor
        · intro hc
          rcases List.mem_append.mp hc with h | h
          · rcases List.mem_cons.mp h with h | h
            · exact hh0i h.symm
            · exact hiA h
          · exact hiY h
        · rw [List.nodup_append]
          refine ⟨hndX, hndY, ?_⟩
          intro a ha hb
          rcases List.mem_cons.mp ha with h | h
          · exact hh0Y (h ▸ hb)
          · exact hdisj a h hb
      · rw [List.headD_cons]
        exact hfd.2.symm
      · refine List.chain'_cons'.mpr ⟨?_, ?_⟩
        · intro y hy
          rw [show ((h0 :: A) ++ s0 :: Y').head? = some h0 from rfl] at hy
          simp only [Option.mem_def, Option.some.injEq] at hy
          subst hy
          refine ⟨?_, ?_⟩
          · rw [s1]
            exact hhead'.symm
          · rw [hhead']
            exact s6
        · refine List.chain'_append.mpr ⟨?_, ?_, ?_⟩
          · refine chain'_adj_transfer cache _ (h0 :: A) hchA ?_ ?_
            · intro a ha
              have haX : a ∈ h0 :: A := (List.dropLast_sublist _).subset ha
              have hap : a ≠ (h0 :: A).getLastD 0 := by
                intro hc
                rw [hc] at ha
                exact getLastD_not_mem_dropLast _ hndX hXne ha
              have hai : a ≠ idx := by
                intro hc
                rw [hc] at haX
                rcases List.mem_cons.mp haX with h | h
                · exact hh0i h.symm
                · exact hiA h
              have haL : a ≠ (s0 :: Y').getLastD 0 := by
                intro hc
                rw [hc] at haX
                rcases List.mem_cons.mp haX with h | h
                · exact hh0Y (h ▸ hLmem)
                · exact hdisj _ h hLmem
              exact s7 a hap hai haL
            · intro b hb
              have hbA : b ∈ A := by
                rw [List.tail_cons] at hb
                exact hb
              have hbs0 : b ≠ s0 := by
                intro hc
                rw [hc] at hbA
                exact hdisj s0 hbA (by simp)
              have hbi : b ≠ idx := fun hc => hiA (hc ▸ hbA)
              have hbhd : b ≠ cache.head := by
                rw [← hhead']
                intro hc
                rw [hc] at hbA
                exact hh0A hbA
              exact s8 b hbs0 hbi hbhd
          · have hchY' : List.Chain' (Adj cache) (s0 :: Y') := (List.chain'_cons.mp hchY).2
            refine chain'_adj_transfer cache _ (s0 :: Y') hchY' ?_ ?_
            · intro a ha
              have haY : a ∈ s0 :: Y' := (List.dropLast_sublist _).subset ha
              have hap : a ≠ (h0 :: A).getLastD 0 := by
                intro hc
                rw [hc] at haY
                rcases List.mem_cons.mp hpmem with h | h
                · rw [h] at haY
                  exact hh0Y haY
                · exact hdisj _ h haY
              have hai : a ≠ idx := fun hc => hiY (hc ▸ haY)
              have haL : a ≠ (s0 :: Y').getLastD 0 := by
                intro hc
                rw [hc] at ha
                exact getLastD_not_mem_dropLast _ hndY hYne ha
              exact s7 a hap hai haL
            · intro b hb
              have hbY : b ∈ Y' := by
                rw [List.tail_cons] at hb
                exact hb
              have hbs0 : b ≠ s0 := by
                intro hc
                rw [hc] at hbY
                exact (List.nodup_cons.mp hndY).1 hbY
              have hbi : b ≠ idx := fun hc => hiY (hc ▸ List.mem_cons_of_mem _ hbY)
              have hbhd : b ≠ cache.head := by
                rw [← hhead']
                intro hc
                rw [hc] at hbY
                exact hh0Y (List.mem_cons_of_mem _ hbY)
              exact s8 b hbs0 hbi hbhd
          · intro x hx y hy
            have hx' : x = (h0 :: A).getLastD 0 := by
              rw [List.getLast?_eq_getLast _ hXne] at hx
              rw [getLastD_eq_getLast _ hXne 0]
              exact (by simpa using hx : _ = x).symm
            have hy' : y = s0 := (by simpa using hy : s0 = y).symm
            rw [hx', hy']
            exact ⟨s3, s4⟩
      · rw [List.headD_cons, List.getLastD_cons,
          getLastD_irrel ((h0 :: A) ++ s0 :: Y') (by simp) idx 0,
          getLastD_append_right (h0 :: A) (s0 :: Y') hYne 0]
        exact ⟨s5, s2⟩
      · refine Or.inr ?_
        intro i
        rw [g2, ← hmemr i]
        simp only [List.mem_cons, List.mem_append]
        tauto
      · rw [g2]
        simp only [List.length_cons, List.length_append] at hlen ⊢
        omega
      · rw [g1, g3]
        exact hpl
      · rw [g2, g3]
        exact hcap
      · rw [g3]
        exact htp

theorem ring_init (n : Nat) (hn : 0 < n) : IsRing (initCache n) [0] := by
  have hget : getNode (List.replicate n (default : lruCacheNode)) 0 = default := by
    cases n with
    | zero => rfl
    | succ m => rfl
  refine ⟨by simp, by simp, rfl, by simp, ?_, Or.inl ⟨rfl, rfl⟩, by rfl, by simp [initCache], ?_, hn⟩
  · show Adj (initCache n) 0 0
    unfold Adj nxt prv initCache
    simp only []
    rw [hget]
    exact ⟨rfl, rfl⟩
  · show (0 : Nat) ≤ n
    omega

theorem mdok_init (n : Nat) : MdOk (initCache n) := by
  intro j hj
  exfalso
  unfold initCache at hj
  simp only [] at hj
  by_cases hlt : j < n
  · rw [show getNode (List.replicate n (default : lruCacheNode)) j = default from by
      unfold getNode
      rw [List.getD_eq_getElem?_getD, List.getElem?_replicate, if_pos hlt]
      rfl] at hj
    simp [default] at hj
  · rw [show getNode (List.replicate n (default : lruCacheNode)) j = default from by
      unfold getNode
      rw [List.getD_eq_getElem?_getD]
      rw [List.getElem?_eq_none (by simp; omega)]
      rfl] at hj
    simp [default] at hj

theorem mdok_execOp (cache : lruCache) (op : CacheOp) (h : MdOk cache) :
    MdOk (execOp cache op) := by
  cases op with
  | get k =>
    intro j hj
    obtain ⟨-, -, -, g4⟩ := get_element_preserves cache k
    show (getNode (execOp cache (CacheOp.get k)).cachePool j).md5.isSome = true
    rw [show (getNode (execOp cache (CacheOp.get k)).cachePool j).md5 =
        (getNode cache.cachePool j).md5 from (g4 j).2]
    refine h j ?_
    rw [show (getNode cache.cachePool j).request =
        (getNode (execOp cache (CacheOp.get k)).cachePool j).request from ((g4 j).1).symm]
    exact hj
  | put k v =>
    intro j hj
    show (getNode (lru_cache_update_node cache k v).cachePool j).md5.isSome = true
    have hj' : (getNode (lru_cache_update_node cache k v).cachePool j).request.isSome
        = true := hj
    unfold lru_cache_update_node at hj' ⊢
    by_cases hlt : cache.currentCapacity < cache.totalCapacity
    · rw [if_pos hlt] at hj' ⊢
      simp only [md5_setPrev, md5_setNext, request_setPrev, request_setNext] at hj' ⊢
      rw [getNode_set] at hj' ⊢
      split at hj'
      · rw [if_pos (by assumption)]
        rfl
      · rw [if_neg (by assumption)]
        exact h j hj'
    · rw [if_neg hlt] at hj' ⊢
      simp only [] at hj' ⊢
      rw [getNode_set] at hj' ⊢
      split at hj'
      · rw [if_pos (by assumption)]
        rfl
      · rw [if_neg (by assumption)]
        exact h j hj'

theorem ring_execOp (cache : lruCache) (op : CacheOp) (hex : ∃ r, IsRing cache r) :
    ∃ r, IsRing (execOp cache op) r := by
  obtain ⟨r, hr⟩ := hex
  cases op with
  | get k =>
    rcases hf : lru_find_element cache.cachePool k cache.currentCapacity with _ | idx
    · exact ⟨r, ring_get_miss cache r k hr hf⟩
    · have hfind' : (List.range cache.currentCapacity).find?
          (fun i => (getNode cache.cachePool i).request = some k) = some idx := hf
      have hidx : idx < cache.currentCapacity :=
        List.mem_range.mp (List.mem_of_find?_eq_some hfind')
      have hidxr : idx ∈ r := by
        rcases hr.mem with ⟨h0, _⟩ | h
        · omega
        · exact (h idx).mpr hidx
      obtain ⟨X, Y, hXY⟩ := List.append_of_mem hidxr
      rw [hXY] at hr
      exact ⟨idx :: (X ++ Y), ring_get_hit cache k idx X Y hr hf⟩
  | put k v =>
    by_cases hlt : cache.currentCapacity < cache.totalCapacity
    · by_cases h0 : cache.currentCapacity = 0
      · exact ⟨[0], ring_put0 cache r k v hr h0⟩
      · exact ⟨cache.currentCapacity :: r,
          ring_put_notfull cache r k v hr (by omega) hlt⟩
    · exact ⟨r.getLastD 0 :: r.dropLast, ring_put_full cache r k v hr hlt⟩

theorem ring_reach (n : Nat) (hn : 0 < n) (ops : List CacheOp) :
    (∃ r, IsRing (execOps (initCache n) ops) r) ∧
      MdOk (execOps (initCache n) ops) := by
  suffices h : ∀ (ops : List CacheOp) (c : lruCache),
      (∃ r, IsRing c r) → MdOk c →
      (∃ r, IsRing (execOps c ops) r) ∧ MdOk (execOps c ops) by
    exact h ops (initCache n) ⟨[0], ring_init n hn⟩ (mdok_init n)
  intro ops
  induction ops with
  | nil => intro c h1 h2; exact ⟨h1, h2⟩
  | cons op rest ih =>
    intro c h1 h2
    exact ih (execOp c op) (ring_execOp c op h1) (mdok_execOp c op h2)

theorem ringpos_mono (r : List Nat) (i t t2 : Nat) (h : RingPos r i t) (hle : t ≤ t2) :
    RingPos r i t2 := by
  obtain ⟨p, q, h1, h2⟩ := h
  exact ⟨p, q, h1, by omega⟩

theorem ringpos_cons (r : List Nat) (m i t : Nat) (h : RingPos r i t) :
    RingPos (m :: r) i (t + 1) := by
  obtain ⟨p, q, h1, h2⟩ := h
  refine ⟨m :: p, q, by rw [h1, List.cons_append], ?_⟩
  simp only [List.length_cons]
  omega

theorem ringpos_get_hit (X Y : List Nat) (idx i t : Nat)
    (hnd : (X ++ idx :: Y).Nodup)
    (hpos : RingPos (X ++ idx :: Y) i t) :
    RingPos (idx :: (X ++ Y)) i (t + 1) := by
  by_cases hii : i = idx
  · exact ⟨[], X ++ Y, by rw [hii, List.nil_append], by simp⟩
  · obtain ⟨P, Q, h1, h2⟩ := hpos
    have hidxPQ : idx ∈ P ++ i :: Q := by
      rw [← h1]
      simp
    rcases List.mem_append.mp hidxPQ with hP | hQ
    · obtain ⟨P1, P2, hP12⟩ := List.append_of_mem hP
      have h1' : X ++ idx :: Y = P1 ++ idx :: (P2 ++ i :: Q) := by
        rw [h1, hP12]
        simp
      obtain ⟨hX, hY⟩ := eq_of_decomp_nodup idx X Y P1 (P2 ++ i :: Q) hnd h1'
      refine ⟨idx :: P1 ++ P2, Q, ?_, ?_⟩
      · rw [hX, hY]
        simp
      · rw [hP12] at h2
        simp only [List.length_append, List.length_cons] at h2 ⊢
        omega
    · rcases List.mem_cons.mp hQ with h | hQ2
      · exact absurd h.symm hii
      · obtain ⟨Q1, Q2, hQ12⟩ := List.append_of_mem hQ2
        have h1' : X ++ idx :: Y = (P ++ i :: Q1) ++ idx :: Q2 := by
          rw [h1, hQ12]
          simp
        obtain ⟨hX, hY⟩ := eq_of_decomp_nodup idx X Y (P ++ i :: Q1) Q2 hnd h1'
        refine ⟨idx :: P, Q1 ++ Q2, ?_, ?_⟩
        · rw [hX, hY]
          simp
        · simp only [List.length_cons]
          omega

theorem ringpos_full (r : List Nat) (i t : Nat) (hnd : r.Nodup)
    (hpos : RingPos r i t) (hlt : t + 1 < r.length) :
    i ≠ r.getLastD 0 ∧ RingPos (r.getLastD 0 :: r.dropLast) i (t + 1) := by
  obtain ⟨P, Q, h1, h2⟩ := hpos
  have hQ : Q ≠ [] := by
    intro h
    rw [h] at h1
    rw [h1] at hlt
    simp only [List.length_append, List.length_cons, List.length_nil] at hlt
    omega
  have hlastQ : r.getLastD 0 = Q.getLastD 0 := by
    rw [h1, getLastD_append_right P (i :: Q) (by simp) 0, List.getLastD_cons,
      getLastD_irrel Q hQ i 0]
  have hiQ : i ∉ Q := by
    rw [h1] at hnd
    exact (List.nodup_cons.mp (List.nodup_append.mp hnd).2.1).1
  have hni : i ≠ r.getLastD 0 := by
    rw [hlastQ]
    intro hc
    exact hiQ (hc ▸ getLastD_mem Q hQ)
  refine ⟨hni, ?_⟩
  have hdrop : r.dropLast = P ++ i :: Q.dropLast := by
    rw [h1, List.dropLast_append_of_ne_nil P (by simp)]
    congr 1
    rcases Q with _ | ⟨q0, Q'⟩
    · exact absurd rfl hQ
    · rfl
  refine ⟨r.getLastD 0 :: P, Q.dropLast, ?_, ?_⟩
  · rw [hdrop, List.cons_append]
  · simp only [List.length_cons]
    omega

theorem execOp_tot (cache : lruCache) (op : CacheOp) :
    (execOp cache op).totalCapacity = cache.totalCapacity := by
  cases op with
  | get k => exact (get_element_preserves cache k).2.2.1
  | put k v =>
    show (lru_cache_update_node cache k v).totalCapacity = cache.totalCapacity
    unfold lru_cache_update_node
    split <;> rfl

theorem execOps_tot (L : List CacheOp) : ∀ c : lruCache,
    (execOps c L).totalCapacity = c.totalCapacity := by
  induction L with
  | nil => intro c; rfl
  | cons op rest ih => intro c; exact (ih (execOp c op)).trans (execOp_tot c op)

theorem mdok_execOps (L : List CacheOp) : ∀ c : lruCache,
    MdOk c → MdOk (execOps c L) := by
  induction L with
  | nil => intro c h; exact h
  | cons op rest ih => intro c h; exact ih (execOp c op) (mdok_execOp c op h)

theorem tracked_step (cache : lruCache) (i t : Nat) (k : String) (op : CacheOp)
    (htr : Tracked cache i t k) (ht : t + 1 < cache.totalCapacity) :
    Tracked (execOp cache op) i (t + 1) k := by
  obtain ⟨r, hr, hpos, hcur, hreq⟩ := htr
  cases op with
  | get k2 =>
    obtain ⟨g1, g2, g3, g4⟩ := get_element_preserves cache k2
    rcases hf : lru_find_element cache.cachePool k2 cache.currentCapacity with _ | idx
    · rw [show execOp cache (CacheOp.get k2) = cache from by
        show (lru_cache_get_element cache k2).2 = cache
        rw [get_element_miss cache k2 hf]]
      exact ⟨r, hr, ringpos_mono r i t _ hpos (by omega), hcur, hreq⟩
    · have hfind' : (List.range cache.currentCapacity).find?
          (fun j => (getNode cache.cachePool j).request = some k2) = some idx := hf
      have hidx : idx < cache.currentCapacity :=
        List.mem_range.mp (List.mem_of_find?_eq_some hfind')
      have hidxr : idx ∈ r := by
        rcases hr.mem with ⟨h0, _⟩ | h
        · omega
        · exact (h idx).mpr hidx
      obtain ⟨X, Y, hXY⟩ := List.append_of_mem hidxr
      rw [hXY] at hr hpos
      refine ⟨idx :: (X ++ Y), ring_get_hit cache k2 idx X Y hr hf,
        ringpos_get_hit X Y idx i t hr.nodup hpos, ?_, ?_⟩
      · show 1 ≤ (lru_cache_get_element cache k2).2.currentCapacity
        rw [g2]
        exact hcur
      · show (getNode (lru_cache_get_element cache k2).2.cachePool i).request = some k
        rw [(g4 i).1]
        exact hreq
  | put k2 v =>
    by_cases hlt : cache.currentCapacity < cache.totalCapacity
    · refine ⟨cache.currentCapacity :: r, ring_put_notfull cache r k2 v hr hcur hlt,
        ringpos_cons r cache.currentCapacity i t hpos, ?_, ?_⟩
      · obtain ⟨-, h2, -, -, -, -, -⟩ := update_notfull_core cache k2 v hlt hr.poolLen
        show 1 ≤ (lru_cache_update_node cache k2 v).currentCapacity
        rw [h2]
        omega
      · have hir : i ∈ r := by
          obtain ⟨P, Q, h1, -⟩ := hpos
          rw [h1]
          simp
        have him : i < cache.currentCapacity := by
          rcases hr.mem with ⟨h0, -⟩ | h
          · omega
          · exact (h i).mp hir
        obtain ⟨-, -, -, -, -, -, h7⟩ := update_notfull_core cache k2 v hlt hr.poolLen
        show (getNode (lru_cache_update_node cache k2 v).cachePool i).request = some k
        rw [(h7 i (by omega)).1]
        exact hreq
    · have hcurtot : cache.currentCapacity = cache.totalCapacity := by
        have := hr.capLe
        omega
      have hrlen : r.length = cache.totalCapacity := by
        have hl := hr.len
        rw [hcurtot] at hl
        rw [hl]
        have := hr.totPos
        omega
      obtain ⟨hni, hpos'⟩ := ringpos_full r i t hr.nodup hpos (by omega)
      obtain ⟨f1, f2, f3, f4, f5, f6, f7⟩ := update_full_links cache k2 v hlt
      have hu : (getNode cache.cachePool cache.head).prev = r.getLastD 0 := by
        have hw := hr.wrap.2
        rw [hr.headEq] at hw
        exact hw
      refine ⟨r.getLastD 0 :: r.dropLast, ring_put_full cache r k2 v hr hlt, hpos', ?_, ?_⟩
      · show 1 ≤ (lru_cache_update_node cache k2 v).currentCapacity
        rw [f2]
        exact hcur
      · show (getNode (lru_cache_update_node cache k2 v).cachePool i).request = some k
        rw [f7 i (by rw [hu]; exact hni)]
        exact hreq

theorem tracked_ops (L : List CacheOp) :
    ∀ (cache : lruCache) (i t : Nat) (k : String),
      Tracked cache i t k → t + L.length ≤ cache.totalCapacity - 1 →
      Tracked (execOps cache L) i (t + L.length) k := by
  induction L with
  | nil =>
    intro c i t k h _
    exact h
  | cons op rest ih =>
    intro c i t k h hb
    have htot : 0 < c.totalCapacity := by
      obtain ⟨r, hr, -⟩ := h
      exact hr.totPos
    simp only [List.length_cons] at hb
    have hstep := tracked_step c i t k op h (by omega)
    have hrec := ih (execOp c op) i (t + 1) k hstep (by rw [execOp_tot]; omega)
    show Tracked (execOps (execOp c op) rest) i (t + (rest.length + 1)) k
    rw [show t + (rest.length + 1) = (t + 1) + rest.length from by omega]
    exact hrec

/-- C3: when get(k) finds k at pool slot idx in a cache reached from a fresh
cache of capacity n by any operation sequence, the node is spliced to the head
of the recency ring (the cache head becomes idx) still holding k, and no
following sequence of fewer than n operations can evict k: a further get(k)
still returns a stored digest. -/
theorem lru_get_protects (n : Nat) (hn : 0 < n) (ops L : List CacheOp)
    (k : String) (idx : Nat)
    (hfind : lru_find_element (execOps (initCache n) ops).cachePool k
      (execOps (initCache n) ops).currentCapacity = some idx)
    (hlen : L.length < n) :
    (lru_cache_get_element (execOps (initCache n) ops) k).2.head = idx ∧
    (getNode (lru_cache_get_element (execOps (initCache n) ops) k).2.cachePool
      idx).request = some k ∧
    (lru_cache_get_element
      (execOps (lru_cache_get_element (execOps (initCache n) ops) k).2 L) k).1.isSome
      = true := by
  obtain ⟨⟨r, hr⟩, hmd⟩ := ring_reach n hn ops
  have hfind' : (List.range (execOps (initCache n) ops).currentCapacity).find?
      (fun j => (getNode (execOps (initCache n) ops).cachePool j).request = some k)
      = some idx := hfind
  have hidx : idx < (execOps (initCache n) ops).currentCapacity :=
    List.mem_range.mp (List.mem_of_find?_eq_some hfind')
  have hreq0 : (getNode (execOps (initCache n) ops).cachePool idx).request = some k := by
    have h := List.find?_some hfind'
    simpa using h
  obtain ⟨g1, g2, g3, g4⟩ := get_element_preserves (execOps (initCache n) ops) k
  have hfd := get_element_found (execOps (initCache n) ops) k idx hfind
  refine ⟨hfd.2, ?_, ?_⟩
  · rw [(g4 idx).1]
    exact hreq0
  · have hidxr : idx ∈ r := by
      rcases hr.mem with ⟨h0, -⟩ | h
      · omega
      · exact (h idx).mpr hidx
    obtain ⟨X, Y, hXY⟩ := List.append_of_mem hidxr
    rw [hXY] at hr
    have htr : Tracked (lru_cache_get_element (execOps (initCache n) ops) k).2
        idx 0 k := by
      refine ⟨idx :: (X ++ Y), ring_get_hit _ k idx X Y hr hfind,
        ⟨[], X ++ Y, by rw [List.nil_append], by simp⟩, ?_, ?_⟩
      · rw [g2]
        omega
      · rw [(g4 idx).1]
        exact hreq0
    have htot1 : (lru_cache_get_element (execOps (initCache n) ops) k).2.totalCapacity
        = n := by
      rw [g3, execOps_tot]
      rfl
    have hfin := tracked_ops L _ idx 0 k htr (by rw [htot1]; omega)
    obtain ⟨r2, hr2, hpos2, hcur2, hreq2⟩ := hfin
    have hidx2 : idx < (execOps (lru_cache_get_element (execOps (initCache n) ops) k).2
        L).currentCapacity := by
      have hir2 : idx ∈ r2 := by
        obtain ⟨P, Q, h1, -⟩ := hpos2
        rw [h1]
        simp
      rcases hr2.mem with ⟨h0, -⟩ | h
      · omega
      · exact (h idx).mp hir2
    have hsome : ((List.range (execOps
        (lru_cache_get_element (execOps (initCache n) ops) k).2 L).currentCapacity).find?
        (fun j => (getNode (execOps
          (lru_cache_get_element (execOps (initCache n) ops) k).2 L).cachePool
          j).request = some k)).isSome = true := by
      refine List.find?_isSome.mpr ⟨idx, List.mem_range.mpr hidx2, ?_⟩
      exact decide_eq_true hreq2
    obtain ⟨j, hj⟩ := Option.isSome_iff_exists.mp hsome
    have hjfind : lru_find_element (execOps
        (lru_cache_get_element (execOps (initCache n) ops) k).2 L).cachePool k
        (execOps (lru_cache_get_element (execOps (initCache n) ops) k).2
          L).currentCapacity = some j := hj
    have hjreq : (getNode (execOps
        (lru_cache_get_element (execOps (initCache n) ops) k).2 L).cachePool
        j).request = some k := by
      have h := List.find?_some hj
      simpa using h
    have hmdall : MdOk (execOps
        (lru_cache_get_element (execOps (initCache n) ops) k).2 L) :=
      mdok_execOps L _ (mdok_execOp _ (CacheOp.get k) hmd)
    have hfd2 := get_element_found _ k j hjfind
    rw [hfd2.1]
    exact hmdall j (by rw [hjreq]; rfl)

/-- C3 witness: on a capacity-2 cache holding key a, get(a) leaves a at the
head slot 0 and one further put of another key cannot evict it. -/
theorem lru_get_protects_witness :
    (lru_cache_get_element (execOps (initCache 2) [CacheOp.put ("a") ("da")])
      ("a")).2.head = 0 ∧
    (getNode (lru_cache_get_element (execOps (initCache 2)
      [CacheOp.put ("a") ("da")]) ("a")).2.cachePool 0).request = some ("a") ∧
    (lru_cache_get_element
      (execOps (lru_cache_get_element (execOps (initCache 2)
        [CacheOp.put ("a") ("da")]) ("a")).2 [CacheOp.put ("b") ("db")])
      ("a")).1.isSome = true :=
  lru_get_protects 2 (by decide) [CacheOp.put ("a") ("da")] [CacheOp.put ("b") ("db")]
    ("a") 0 (by decide) (by decide)

/-- C3 counterexample to the claimed distinct-key bound: on a capacity-3 cache
filled with a, b, c, a successful get(a) is followed by three puts that all use
the single distinct key d, after which get(a) misses; the claim requires at
least two other distinct keys before such an eviction. -/
theorem lru_get_protects_counterexample :
    (lru_cache_get_element
      (execOps
        (lru_cache_get_element
          (execOps (initCache 3)
            [CacheOp.put ("a") ("da"), CacheOp.put ("b") ("db"),
             CacheOp.put ("c") ("dc")]) ("a")).2
        [CacheOp.put ("d") ("dd"), CacheOp.put ("d") ("dd"),
         CacheOp.put ("d") ("dd")]) ("a")).1 = none ∧
    ([CacheOp.put ("d") ("dd"), CacheOp.put ("d") ("dd"),
      CacheOp.put ("d") ("dd")].map CacheOp.key).dedup = [("d")] ∧
    (1 : Nat) < 3 - 1 := by
  decide
